import Mathlib

/-!
Verification development for the PathProof analysis engine
(`src/lib/graphAnalysis.ts`).

The TypeScript engine is shallowly embedded as executable Lean functions.
Modelling conventions, chosen so that every definition mirrors the source
line by line:

* JS `Map` (insertion ordered) is an association list `List (String × α)`;
  `Map.get` is `mapFind` (first matching key), `Map.set` is `mapSet`
  (update in place, else append).
* JS `Set` (insertion ordered) is a `List String` with `setAdd`
  (append if absent).
* JS numbers are modelled exactly: timestamps and amounts as `ℤ`
  (milliseconds / currency units), suspicion scores as `ℤ`
  (the engine only ever adds the integer weights 40/25/25/20/10,
  caps at 100 and floors at 0).  `Math.round(x*10)/10` applied to an
  integer-valued score is the identity, so emitted account scores stay `ℤ`;
  ring `risk_score` (mean of member scores rounded to one decimal) is kept
  in tenths as an integer (`riskScoreTenths` = `Math.round(mean*10)`),
  which is exact.
* `Math.round` rounds half away from zero upwards, i.e. `⌊x + 1/2⌋`;
  on a rational `p/q` (q > 0) this is `Int.fdiv (2*p + q) (2*q)`.
* The payroll filter's test `cv < 0.05` with `cv = std/mean` (population
  standard deviation) for `mean > 0` is equivalent to
  `variance < mean²/400` since both sides of `std < mean/20` are
  nonnegative; clearing the denominators (`mean = S/n`,
  `n²·variance = n·Q − S²` with `S` the sum and `Q` the sum of squares)
  gives the exact integer test `400·(n·Q − S²) < S²`.  `mean > 0 ↔ S > 0`.
  This avoids square roots while deciding exactly the source's predicate.
* JS `sort` is a stable sort; we use `List.insertionSort` (stable).
  The cycle key `cycle.sort().join('|')` sorts strings in code-unit order;
  any total order yields the same deduplication semantics, we use
  code-point order `charsLe`.
* `while` loops become structural recursions on an explicit fuel that is
  large enough to be unreachable (each case is justified in a comment),
  so that all definitions compute by kernel reduction.
-/

namespace PathProof

set_option maxRecDepth 1000000

/-- Association-list lookup: first entry with the given key (JS `Map.get`). -/
def mapFind {α : Type} (m : List (String × α)) (k : String) : Option α :=
  (m.find? (fun p => p.1 == k)).map (fun p => p.2)

/-- Association-list update (JS `Map.set`): overwrite in place if the key is
present (keeping its position), otherwise append. -/
def mapSet {α : Type} (m : List (String × α)) (k : String) (v : α) :
    List (String × α) :=
  if m.any (fun p => p.1 == k) then
    m.map (fun p => if p.1 == k then (k, v) else p)
  else m ++ [(k, v)]

/-- JS `Set.add`: append if absent (insertion-ordered set). -/
def setAdd (s : List String) (x : String) : List String :=
  if s.contains x then s else s ++ [x]

/-- Append a value to the list stored under a key, creating the entry if
missing; used for the `byReceiver` / `bySender` groupings. -/
def groupPush {α : Type} (m : List (String × List α)) (k : String) (v : α) :
    List (String × List α) :=
  match mapFind m k with
  | none => m ++ [(k, [v])]
  | some l => mapSet m k (l ++ [v])

/-- Add an edge to an adjacency map of insertion-ordered sets
(`adjacency.get(a).add(b)` with creation on first use). -/
def adjAdd (m : List (String × List String)) (k v : String) :
    List (String × List String) :=
  match mapFind m k with
  | none => m ++ [(k, [v])]
  | some s => mapSet m k (setAdd s v)

/-- Adjacency lookup defaulting to the empty set
(`adjacency.get(id) ?? new Set()`). -/
def adjGet (m : List (String × List String)) (k : String) : List String :=
  (mapFind m k).getD []

/-- Lexicographic code-point order on character lists, used to model the JS
default string sort inside the cycle canonical key. -/
def charsLe : List Char → List Char → Bool
  | [], _ => true
  | _ :: _, [] => false
  | c :: cs, d :: ds =>
    if c.toNat < d.toNat then true
    else if d.toNat < c.toNat then false
    else charsLe cs ds

/-- String order for the cycle key sort. -/
def strLe (a b : String) : Bool := charsLe a.data b.data

/-- Number of distinct elements of a list (JS `new Set(xs).size`). -/
def countDistinct (l : List String) : Nat := l.dedup.length

/-- Model of JS `String.prototype.startsWith`. -/
def jsStartsWith (s pre : String) : Bool := pre.data.isPrefixOf s.data

def tagFanIn : String := "fan_in"
def tagFanOut : String := "fan_out"
def tagShell : String := "shell_chain"
def tagVelocity : String := "high_velocity"
def tagCyclePre : String := "cycle_length_"
def cycleWord : String := "cycle"
def typeShell : String := "shell_chain"
def ringPre : String := "RING_"
def sepBar : String := "|"

/-- Pattern tag `cycle_length_${len}`. -/
def cycleTag (len : Nat) : String := tagCyclePre ++ Nat.repr len

-- =============================================
-- Data model (src/types/index.ts)
-- =============================================

structure Transaction where
  transaction_id : String
  sender_id : String
  receiver_id : String
  amount : ℤ
  timestampMs : ℤ
deriving DecidableEq

structure GraphEdge where
  source : String
  target : String
  amount : ℤ
  timestamp : ℤ
  transactionId : String
deriving DecidableEq

structure GraphNode where
  id : String
  totalTransactions : ℕ
  totalSent : ℤ
  totalReceived : ℤ
  uniqueSenders : List String
  uniqueReceivers : List String
  isSuspicious : Bool
  suspicionScore : ℤ
  detectedPatterns : List String
  ringId : Option String
deriving DecidableEq

structure FraudRing where
  ring_id : String
  member_accounts : List String
  pattern_type : String
  riskScoreTenths : ℤ
deriving DecidableEq

structure SuspiciousAccount where
  account_id : String
  suspicion_score : ℤ
  detected_patterns : List String
  ring_id : Option String
deriving DecidableEq

structure AnalysisSummary where
  total_accounts_analyzed : ℕ
  suspicious_accounts_flagged : ℕ
  fraud_rings_detected : ℕ
  processingTimeHundredths : ℤ
deriving DecidableEq

abbrev NodeMap := List (String × GraphNode)
abbrev AdjMap := List (String × List String)

structure AnalysisResult where
  suspicious_accounts : List SuspiciousAccount
  fraud_rings : List FraudRing
  summary : AnalysisSummary
  nodes : NodeMap
  edges : List GraphEdge
deriving DecidableEq

-- =============================================
-- Graph Building (graphAnalysis.ts:14-72)
-- =============================================

structure Graph where
  nodes : NodeMap
  edges : List GraphEdge
  adjacency : AdjMap
  reverseAdj : AdjMap
  edgesByTime : List GraphEdge
deriving DecidableEq

/-- Fresh node record as created by `ensureNode` (graphAnalysis.ts:28-38). -/
def emptyNode (id : String) : GraphNode :=
  { id := id, totalTransactions := 0, totalSent := 0, totalReceived := 0,
    uniqueSenders := [], uniqueReceivers := [], isSuspicious := false,
    suspicionScore := 0, detectedPatterns := [], ringId := none }

/-- `ensureNode` (graphAnalysis.ts:26-41): insert a fresh node if absent. -/
def ensureNode (nodes : NodeMap) (id : String) : NodeMap :=
  if (mapFind nodes id).isSome then nodes else nodes ++ [(id, emptyNode id)]

/-- Timestamp order used for `edgesByTime` and the window detectors. -/
def edgeTsLe (a b : GraphEdge) : Prop := a.timestamp ≤ b.timestamp

instance : DecidableRel edgeTsLe := fun a b => Int.decLe a.timestamp b.timestamp

instance : IsTotal GraphEdge edgeTsLe := ⟨fun a b => Int.le_total a.timestamp b.timestamp⟩

instance : IsTrans GraphEdge edgeTsLe := ⟨fun _ _ _ h h2 => le_trans h h2⟩

/-- One iteration of the transaction fold in `buildGraph`
(graphAnalysis.ts:43-68).  The sender's counters are updated before the
receiver is looked up, so a self-loop (sender = receiver) updates the same
record twice, exactly as the aliased JS object does. -/
def buildStep (st : NodeMap × List GraphEdge × AdjMap × AdjMap)
    (tx : Transaction) : NodeMap × List GraphEdge × AdjMap × AdjMap :=
  match st with
  | (nodes, edges, adj, radj) =>
    let nodes := ensureNode nodes tx.sender_id
    let nodes := ensureNode nodes tx.receiver_id
    let nodes :=
      match mapFind nodes tx.sender_id with
      | some s =>
        mapSet nodes tx.sender_id
          { s with totalTransactions := s.totalTransactions + 1,
                   totalSent := s.totalSent + tx.amount,
                   uniqueReceivers := setAdd s.uniqueReceivers tx.receiver_id }
      | none => nodes
    let nodes :=
      match mapFind nodes tx.receiver_id with
      | some r =>
        mapSet nodes tx.receiver_id
          { r with totalTransactions := r.totalTransactions + 1,
                   totalReceived := r.totalReceived + tx.amount,
                   uniqueSenders := setAdd r.uniqueSenders tx.sender_id }
      | none => nodes
    let edges := edges ++
      [{ source := tx.sender_id, target := tx.receiver_id,
         amount := tx.amount, timestamp := tx.timestampMs,
         transactionId := tx.transaction_id }]
    let adj := adjAdd adj tx.sender_id tx.receiver_id
    let radj := adjAdd radj tx.receiver_id tx.sender_id
    (nodes, edges, adj, radj)

/-- `buildGraph` (graphAnalysis.ts:14-72). -/
def buildGraph (transactions : List Transaction) : Graph :=
  match transactions.foldl buildStep ([], [], [], []) with
  | (nodes, edges, adj, radj) =>
    { nodes := nodes, edges := edges, adjacency := adj, reverseAdj := radj,
      edgesByTime := List.insertionSort edgeTsLe edges }

-- =============================================
-- Cycle Detection (graphAnalysis.ts:81-121)
-- =============================================

structure CycleSt where
  cycles : List (List String)
  seenCycles : List String
deriving DecidableEq

/-- The canonical deduplication key: member ids sorted and joined by a bar
(`[...cycle].sort().join('|')`, graphAnalysis.ts:100). -/
def cycleKey (c : List String) : String :=
  String.intercalate sepBar (List.insertionSort (fun a b => strLe a b = true) c)

/-- Record a found cycle unless its key was already seen
(graphAnalysis.ts:99-104). -/
def emitCycle (path : List String) (st : CycleSt) : CycleSt :=
  let key := cycleKey path
  if st.seenCycles.contains key then st
  else { cycles := st.cycles ++ [path], seenCycles := st.seenCycles ++ [key] }

/-- The neighbor loop of `dfs` (graphAnalysis.ts:96-114).  `rec` is the
recursive call at depth+1; the fold threads the cycle state while keeping
`visited` and `path` per branch (the JS code pushes and then pops them). -/
def neighLoop (rec : String → List String → List String → CycleSt → CycleSt)
    (start : String) (depth : Nat) :
    List String → List String → List String → CycleSt → CycleSt
  | [], _, _, st => st
  | nb :: rest, visited, path, st =>
    let st :=
      if nb = start ∧ 3 ≤ depth then emitCycle path st
      else if ¬ visited.contains nb ∧ depth < 5 then
        rec nb (visited ++ [nb]) (path ++ [nb]) st
      else st
    neighLoop rec start depth rest visited path st

/-- `dfs` (graphAnalysis.ts:93-115).  The fuel only bounds the structural
recursion; the source recursion is already bounded because `dfs` is entered
at depth 1 and only recurses while `depth < 5`, so with fuel 6 the zero-fuel
branch is unreachable. -/
def dfs (adjacency : AdjMap) (start : String) :
    Nat → Nat → String → List String → List String → CycleSt → CycleSt
  | 0, _, _, _, _, st => st
  | fuel + 1, depth, current, visited, path, st =>
    if 5 < depth then st
    else
      neighLoop (fun nb v p s => dfs adjacency start fuel (depth + 1) nb v p s)
        start depth (adjGet adjacency current) visited path st

/-- `detectCycles` (graphAnalysis.ts:81-121): depth-limited DFS from every
node in insertion order, deduplicating by `cycleKey`. -/
def detectCycles (adjacency : AdjMap) (nodeIds : List String) :
    List (List String) :=
  (nodeIds.foldl
    (fun st start => dfs adjacency start 6 1 start [start] [start] st)
    { cycles := [], seenCycles := [] }).cycles

-- =============================================
-- Smurfing Detection (graphAnalysis.ts:126-186)
-- =============================================

def SMURF_THRESHOLD : Nat := 10
def SMURF_WINDOW_MS : ℤ := 72 * 60 * 60 * 1000

def dummyEdge : GraphEdge :=
  { source := "", target := "", amount := 0, timestamp := 0, transactionId := "" }

/-- Timestamp of the i-th edge of a list (out-of-range accesses never happen
at the call sites below). -/
def tsAt (l : List GraphEdge) (i : Nat) : ℤ := (l.getD i dummyEdge).timestamp

/-- The window-advance loop
`while (sorted[right].timestamp - sorted[left].timestamp > W) left++`
(graphAnalysis.ts:156-158).  Called with fuel `right - left`; since the
timestamps are sorted the condition is false at `left = right`
(width 0 ≤ W), so the loop stops after at most `right - left` steps and the
zero-fuel branch returns the same index the source loop would. -/
def advanceLeft (sorted : List GraphEdge) (W : ℤ) (right : Nat) :
    Nat → Nat → Nat
  | left, 0 => left
  | left, fuel + 1 =>
    if W < tsAt sorted right - tsAt sorted left then
      advanceLeft sorted W right (left + 1) fuel
    else left

/-- The window `sorted.slice(left, right + 1)` (graphAnalysis.ts:159). -/
def windowSlice (sorted : List GraphEdge) (left right : Nat) :
    List GraphEdge :=
  (sorted.drop left).take (right + 1 - left)

/-- The outer `for (right...)` loop of the smurfing scan
(graphAnalysis.ts:154-165) as a countdown: `right = sorted.length - rem`.
Flags as soon as some maximal window holds at least `SMURF_THRESHOLD`
distinct counterparties (`proj` picks the counterparty of an edge). -/
def smurfGo (sorted : List GraphEdge) (proj : GraphEdge → String) :
    Nat → Nat → Bool
  | _, 0 => false
  | left, rem + 1 =>
    let right := sorted.length - (rem + 1)
    let left2 := advanceLeft sorted SMURF_WINDOW_MS right left (right - left)
    if SMURF_THRESHOLD ≤ countDistinct ((windowSlice sorted left2 right).map proj)
    then true
    else smurfGo sorted proj left2 rem

/-- Sort a group of edges by timestamp and run the sliding-window scan. -/
def smurfFlag (es : List GraphEdge) (proj : GraphEdge → String) : Bool :=
  let sorted := List.insertionSort edgeTsLe es
  smurfGo sorted proj 0 sorted.length

structure SmurfResult where
  fanInAccounts : List String
  fanOutAccounts : List String
deriving DecidableEq

/-- Group the edges by receiving account (graphAnalysis.ts:139-148). -/
def byReceiver (edges : List GraphEdge) : List (String × List GraphEdge) :=
  edges.foldl (fun m e => groupPush m e.target e) []

/-- Group the edges by sending account (graphAnalysis.ts:139-148). -/
def bySender (edges : List GraphEdge) : List (String × List GraphEdge) :=
  edges.foldl (fun m e => groupPush m e.source e) []

/-- `detectSmurfing` (graphAnalysis.ts:134-186). -/
def detectSmurfing (edges : List GraphEdge) : SmurfResult :=
  let fanIn := (byReceiver edges).foldl
    (fun acc kv => if smurfFlag kv.2 (fun e => e.source) then setAdd acc kv.1 else acc) []
  let fanOut := (bySender edges).foldl
    (fun acc kv => if smurfFlag kv.2 (fun e => e.target) then setAdd acc kv.1 else acc) []
  { fanInAccounts := fanIn, fanOutAccounts := fanOut }

-- =============================================
-- Layered Shell Network Detection (graphAnalysis.ts:191-246)
-- =============================================

def SHELL_MIN_HOPS : Nat := 3
def SHELL_MAX_TX : Nat := 3

structure QItem where
  id : String
  depth : Nat
  chain : List String
deriving DecidableEq

/-- The neighbor loop of the shell BFS (graphAnalysis.ts:216-241), returning
the updated `(visited, shellAccounts, pushed queue items)`. -/
def shellNeighbors (nodes : NodeMap) (depth : Nat) (chain : List String) :
    List String → List String × List String × List QItem →
    List String × List String × List QItem
  | [], st => st
  | nb :: rest, (visited, acc, pushed) =>
    if visited.contains nb then shellNeighbors nodes depth chain rest (visited, acc, pushed)
    else
      match mapFind nodes nb with
      | none => shellNeighbors nodes depth chain rest (visited, acc, pushed)
      | some nNode =>
        let isShellIntermediate :=
          2 ≤ nNode.totalTransactions ∧ nNode.totalTransactions ≤ SHELL_MAX_TX
        let acc :=
          if SHELL_MIN_HOPS - 1 ≤ depth ∧ SHELL_MIN_HOPS ≤ chain.length then
            setAdd (chain.foldl setAdd acc) nb
          else acc
        let st :=
          if isShellIntermediate ∧ depth < 6 then
            (visited ++ [nb], acc,
              pushed ++ [{ id := nb, depth := depth + 1, chain := chain ++ [nb] }])
          else (visited, acc, pushed)
        shellNeighbors nodes depth chain rest st

/-- The BFS queue loop (graphAnalysis.ts:212-242).  Fuel: every queue item
beyond the seed was pushed exactly when its id was added to `visited`, and
only ids present in `nodes` are pushed, so at most `nodes.length + 1` items
are ever dequeued; the zero-fuel branch is unreachable at the fuel used in
`detectShellChains`. -/
def shellBfs (nodes : NodeMap) (adjacency : AdjMap) :
    Nat → List QItem → List String → List String → List String
  | 0, _, _, acc => acc
  | _ + 1, [], _, acc => acc
  | fuel + 1, item :: rest, visited, acc =>
    match shellNeighbors nodes item.depth item.chain (adjGet adjacency item.id)
        (visited, acc, []) with
    | (visited, acc, pushed) =>
      shellBfs nodes adjacency fuel (rest ++ pushed) visited acc

/-- `detectShellChains` (graphAnalysis.ts:198-246). -/
def detectShellChains (nodes : NodeMap) (adjacency : AdjMap) : List String :=
  nodes.foldl
    (fun acc kv =>
      shellBfs nodes adjacency (nodes.length + 1)
        [{ id := kv.1, depth := 0, chain := [kv.1] }] [kv.1] acc)
    []

-- =============================================
-- High Velocity Detection (graphAnalysis.ts:251-278)
-- =============================================

def VELOCITY_WINDOW_MS : ℤ := 24 * 60 * 60 * 1000
def VELOCITY_MIN_TX : Nat := 20

/-- Timestamp list accessor with default 0 (never out of range at the call
sites). -/
def itsAt (l : List ℤ) (i : Nat) : ℤ := l.getD i 0

/-- `while (sorted[right] - sorted[left] > VELOCITY_WINDOW_MS) left++`
(graphAnalysis.ts:269); fuel as in `advanceLeft`. -/
def velAdvance (sorted : List ℤ) (right : Nat) : Nat → Nat → Nat
  | left, 0 => left
  | left, fuel + 1 =>
    if VELOCITY_WINDOW_MS < itsAt sorted right - itsAt sorted left then
      velAdvance sorted right (left + 1) fuel
    else left

/-- The outer loop of the velocity scan (graphAnalysis.ts:268-274). -/
def velGo (sorted : List ℤ) : Nat → Nat → Bool
  | _, 0 => false
  | left, rem + 1 =>
    let right := sorted.length - (rem + 1)
    let left2 := velAdvance sorted right left (right - left)
    if VELOCITY_MIN_TX ≤ right - left2 + 1 then true
    else velGo sorted left2 rem

/-- `detectHighVelocity` (graphAnalysis.ts:254-278). -/
def detectHighVelocity (edges : List GraphEdge) : List String :=
  let byS := edges.foldl (fun m e => groupPush m e.source e.timestamp) []
  byS.foldl
    (fun acc kv =>
      let sorted := List.insertionSort (fun a b : ℤ => a ≤ b) kv.2
      if velGo sorted 0 sorted.length then setAdd acc kv.1 else acc)
    []

-- =============================================
-- Suspicion Scoring (graphAnalysis.ts:283-331)
-- =============================================

def SCORE_CYCLE : ℤ := 40
def SCORE_FAN_IN : ℤ := 25
def SCORE_FAN_OUT : ℤ := 25
def SCORE_SHELL : ℤ := 20
def SCORE_VELOCITY : ℤ := 10

structure CycleInfo where
  length : Nat
  ringId : String
deriving DecidableEq

/-- The `cycleNodes` map built in `analyzeTransactions`
(graphAnalysis.ts:502-510): each cycle member is mapped to the length of its
shortest containing cycle, with a placeholder ring id. -/
def buildCycleNodes (cycles : List (List String)) : List (String × CycleInfo) :=
  cycles.foldl
    (fun m cycle =>
      cycle.foldl
        (fun m acc =>
          match mapFind m acc with
          | none => mapSet m acc { length := cycle.length, ringId := "" }
          | some info =>
            if cycle.length < info.length then
              mapSet m acc { length := cycle.length, ringId := "" }
            else m)
        m)
    []

/-- Per-node body of the scoring loop (graphAnalysis.ts:299-330). -/
def scoreOne (cycleNodes : List (String × CycleInfo))
    (fanInAccounts fanOutAccounts shellAccounts highVelocity : List String)
    (id : String) (node : GraphNode) : GraphNode :=
  let st : ℤ × List String × Option String :=
    match mapFind cycleNodes id with
    | some info => (SCORE_CYCLE, [cycleTag info.length], some info.ringId)
    | none => (0, [], node.ringId)
  match st with
  | (score, patterns, ringId) =>
    let st :=
      if fanInAccounts.contains id then
        (score + SCORE_FAN_IN, patterns ++ [tagFanIn]) else (score, patterns)
    match st with
    | (score, patterns) =>
      let st :=
        if fanOutAccounts.contains id then
          (score + SCORE_FAN_OUT, patterns ++ [tagFanOut]) else (score, patterns)
      match st with
      | (score, patterns) =>
        let st :=
          if shellAccounts.contains id then
            (score + SCORE_SHELL, patterns ++ [tagShell]) else (score, patterns)
        match st with
        | (score, patterns) =>
          let st :=
            if highVelocity.contains id then
              (score + SCORE_VELOCITY, patterns ++ [tagVelocity])
            else (score, patterns)
          match st with
          | (score, patterns) =>
            { node with
              suspicionScore := min 100 score,
              detectedPatterns := patterns,
              isSuspicious := decide (0 < score),
              ringId := ringId }

/-- `scoreAccounts` (graphAnalysis.ts:291-331). -/
def scoreAccounts (nodes : NodeMap) (cycleNodes : List (String × CycleInfo))
    (fanInAccounts fanOutAccounts shellAccounts highVelocity : List String) :
    NodeMap :=
  nodes.map (fun kv =>
    (kv.1, scoreOne cycleNodes fanInAccounts fanOutAccounts shellAccounts
      highVelocity kv.1 kv.2))

-- =============================================
-- False Positive Filtering (graphAnalysis.ts:336-373)
-- =============================================

/-- The payroll coefficient-of-variation test (graphAnalysis.ts:355-358):
`cv < 0.05` with `cv = (mean > 0 ? std/mean : 0)`.  Writing `S` for the sum,
`Q` for the sum of squares and `n` for the count, `std/mean < 1/20` for
`mean > 0` is equivalent to the exact integer inequality
`400·(n·Q − S²) < S²`, and `mean ≤ 0` makes `cv = 0 < 0.05` true. -/
def payrollCv (amounts : List ℤ) : Bool :=
  let n : ℤ := amounts.length
  let S : ℤ := amounts.sum
  let Q : ℤ := (amounts.map (fun x => x * x)).sum
  if 0 < S then decide (400 * (n * Q - S * S) < S * S) else true

/-- Per-sender body of the payroll filter (graphAnalysis.ts:350-372). -/
def filterOne (amounts : List ℤ) (node : GraphNode) : GraphNode :=
  if 10 ≤ amounts.length ∧ payrollCv amounts = true then
    if ¬ node.detectedPatterns.contains tagFanOut ∨
        node.detectedPatterns.any (fun p => jsStartsWith p cycleWord) then
      node
    else
      let patterns := node.detectedPatterns.filter (fun p => p ≠ tagFanOut)
      let score := max 0 (node.suspicionScore - SCORE_FAN_OUT)
      if patterns.length = 0 then
        { node with detectedPatterns := patterns, suspicionScore := 0,
                    isSuspicious := false }
      else
        { node with detectedPatterns := patterns, suspicionScore := score }
  else node

/-- The sender-to-amounts grouping of the filter (graphAnalysis.ts:344-348). -/
def bySenderAmounts (edges : List GraphEdge) : List (String × List ℤ) :=
  edges.foldl (fun m e => groupPush m e.source e.amount) []

/-- `filterFalsePositives` (graphAnalysis.ts:336-373). -/
def filterFalsePositives (nodes : NodeMap) (edges : List GraphEdge) : NodeMap :=
  (bySenderAmounts edges).foldl
    (fun nodes kv =>
      match mapFind nodes kv.1 with
      | none => nodes
      | some node => mapSet nodes kv.1 (filterOne kv.2 node))
    nodes

-- =============================================
-- Fraud Ring Assembly (graphAnalysis.ts:378-484)
-- =============================================

/-- Left-pad a string with zeros to length 3 (JS `padStart(3, '0')`; longer
strings are returned unchanged). -/
def padStart3 (s : String) : String :=
  if 3 ≤ s.length then s else String.mk (List.replicate (3 - s.length) '0') ++ s

/-- The id `RING_${String(counter).padStart(3, '0')}`. -/
def ringIdStr (n : Nat) : String := ringPre ++ padStart3 (Nat.repr n)

/-- Ring risk score in tenths: `Math.round(mean*10)` where `mean` is the mean
member suspicion score (`score ?? 0` for unknown members).  For a member
count `n > 0` this is `⌊(10·sum)/n + 1/2⌋ = fdiv (20·sum + n) (2·n)`,
computed exactly; the source divides by ten afterwards. -/
def riskScoreTenths (nodes : NodeMap) (members : List String) : ℤ :=
  let s : ℤ :=
    (members.map (fun a => ((mapFind nodes a).map GraphNode.suspicionScore).getD 0)).sum
  Int.fdiv (20 * s + (members.length : ℤ)) (2 * (members.length : ℤ))

structure RingSt where
  counter : Nat
  groups : List (String × List String)
  ringIdMap : List (String × String)
deriving DecidableEq

/-- One iteration of the cycle-merging loop (graphAnalysis.ts:393-411):
merge into the ring of the first already-assigned member, else open a fresh
ring; then add all members to the group and point them at the ring id. -/
def cycleRingStep (st : RingSt) (cycle : List String) : RingSt :=
  let pre :=
    match cycle.findSome? (fun acc => mapFind st.ringIdMap acc) with
    | some rid => (st.counter, st.groups, rid)
    | none =>
      let c := st.counter + 1
      (c, st.groups ++ [(ringIdStr c, [])], ringIdStr c)
  match pre with
  | (counter, groups, rid) =>
    { counter := counter,
      groups := mapSet groups rid (cycle.foldl setAdd ((mapFind groups rid).getD [])),
      ringIdMap := cycle.foldl (fun m acc => mapSet m acc rid) st.ringIdMap }

/-- JS truthiness of the optional ring id: `!node.ringId` is true for the
absent id and for the empty-string placeholder left by the scorer. -/
def ringIdFalsy (o : Option String) : Bool := (o.getD "").length = 0

/-- Emit the cycle rings (graphAnalysis.ts:413-428): one ring per group in
creation order, updating every member's `ringId` unconditionally. -/
def mkCycleRings (st : List FraudRing × NodeMap) (g : String × List String) :
    List FraudRing × NodeMap :=
  match st with
  | (rings, nodes) =>
    let ring : FraudRing :=
      { ring_id := g.1, member_accounts := g.2, pattern_type := cycleWord,
        riskScoreTenths := riskScoreTenths nodes g.2 }
    let nodes := g.2.foldl
      (fun ns acc =>
        match mapFind ns acc with
        | some n => mapSet ns acc { n with ringId := some g.1 }
        | none => ns)
      nodes
    (rings ++ [ring], nodes)

/-- Emit one single-pattern ring (fan-in / fan-out / shell blocks,
graphAnalysis.ts:431-481): skipped when the candidate list is empty; member
`ringId`s are only set when still falsy. -/
def patternRing (ptype : String) (arr : List String)
    (st : Nat × List FraudRing × NodeMap) : Nat × List FraudRing × NodeMap :=
  match st with
  | (counter, rings, nodes) =>
    if arr.length = 0 then (counter, rings, nodes)
    else
      let counter := counter + 1
      let rid := ringIdStr counter
      let ring : FraudRing :=
        { ring_id := rid, member_accounts := arr, pattern_type := ptype,
          riskScoreTenths := riskScoreTenths nodes arr }
      let nodes := arr.foldl
        (fun ns acc =>
          match mapFind ns acc with
          | some n =>
            if ringIdFalsy n.ringId then mapSet ns acc { n with ringId := some rid }
            else ns
          | none => ns)
        nodes
      (counter, rings ++ [ring], nodes)

/-- `assembleFraudRings` (graphAnalysis.ts:380-484), returning the rings and
the node table with the ring ids written back. -/
def assembleFraudRings (cycles : List (List String))
    (fanInAccounts fanOutAccounts shellAccounts : List String)
    (nodes : NodeMap) : List FraudRing × NodeMap :=
  let st := cycles.foldl cycleRingStep { counter := 0, groups := [], ringIdMap := [] }
  let cr := st.groups.foldl mkCycleRings ([], nodes)
  let fanInArr := fanInAccounts.filter (fun a => (mapFind st.ringIdMap a).isNone)
  let p1 := patternRing tagFanIn fanInArr (st.counter, cr.1, cr.2)
  let fanOutArr := fanOutAccounts.filter
    (fun a => (mapFind st.ringIdMap a).isNone && ! fanInAccounts.contains a)
  let p2 := patternRing tagFanOut fanOutArr (p1.1, p1.2.1, p1.2.2)
  let shellArr := shellAccounts.filter
    (fun a => (mapFind st.ringIdMap a).isNone && ! fanInAccounts.contains a
      && ! fanOutAccounts.contains a)
  let p3 := patternRing typeShell shellArr (p2.1, p2.2.1, p2.2.2)
  (p3.2.1, p3.2.2)

-- =============================================
-- Main entry point (graphAnalysis.ts:489-555)
-- =============================================

/-- Descending suspicion-score order of the report
(`(a, b) => b.suspicionScore - a.suspicionScore`); the JS sort is stable, as
is `insertionSort`. -/
def scoreDesc (a b : GraphNode) : Prop := b.suspicionScore ≤ a.suspicionScore

instance : DecidableRel scoreDesc := fun a b => Int.decLe b.suspicionScore a.suspicionScore

/-- Stage: the built graph. -/
def pipelineGraph (transactions : List Transaction) : Graph :=
  buildGraph transactions

/-- Stage: the detected cycles (graphAnalysis.ts:499). -/
def pipelineCycles (transactions : List Transaction) : List (List String) :=
  let g := pipelineGraph transactions
  detectCycles g.adjacency (g.nodes.map (fun kv => kv.1))

/-- Stage: the node table right after scoring (graphAnalysis.ts:522). -/
def nodesAfterScoring (transactions : List Transaction) : NodeMap :=
  let g := pipelineGraph transactions
  let sm := detectSmurfing g.edges
  scoreAccounts g.nodes (buildCycleNodes (pipelineCycles transactions))
    sm.fanInAccounts sm.fanOutAccounts
    (detectShellChains g.nodes g.adjacency) (detectHighVelocity g.edges)

/-- Stage: the node table after the payroll false-positive filter
(graphAnalysis.ts:525). -/
def nodesAfterFilter (transactions : List Transaction) : NodeMap :=
  filterFalsePositives (nodesAfterScoring transactions)
    (pipelineGraph transactions).edges

/-- Stage: rings and final node table (graphAnalysis.ts:528). -/
def pipelineRings (transactions : List Transaction) :
    List FraudRing × NodeMap :=
  let g := pipelineGraph transactions
  let sm := detectSmurfing g.edges
  assembleFraudRings (pipelineCycles transactions)
    sm.fanInAccounts sm.fanOutAccounts
    (detectShellChains g.nodes g.adjacency)
    (nodesAfterFilter transactions)

/-- `analyzeTransactions` (graphAnalysis.ts:489-555).  `startTime` and
`endTime` stand for the two `performance.now()` readings (milliseconds);
they feed only the processing-time summary field, kept in hundredths of a
second (`Math.round(((end-start)/1000)*100)/100` is `round((end-start)/10)`
hundredths, i.e. `fdiv (t+5) 10`). -/
def analyzeTransactions (transactions : List Transaction)
    (startTime endTime : ℤ) : AnalysisResult :=
    let fraudRings := (pipelineRings transactions).1
    let nodes3 := (pipelineRings transactions).2
    let suspiciousAccounts : List SuspiciousAccount :=
      (List.insertionSort scoreDesc
        ((nodes3.map (fun kv => kv.2)).filter
          (fun n => n.isSuspicious && decide (0 < n.suspicionScore)))).map
        (fun n =>
          { account_id := n.id, suspicion_score := n.suspicionScore,
            detected_patterns := n.detectedPatterns, ring_id := n.ringId })
    { suspicious_accounts := suspiciousAccounts,
      fraud_rings := fraudRings,
      summary :=
        { total_accounts_analyzed := nodes3.length,
          suspicious_accounts_flagged := suspiciousAccounts.length,
          fraud_rings_detected := fraudRings.length,
          processingTimeHundredths := Int.fdiv (endTime - startTime + 5) 10 },
      nodes := nodes3,
      edges := (pipelineGraph transactions).edges }

-- =============================================
-- Concrete scenario inputs
-- =============================================

/-- Build a transaction with the given endpoints, amount and timestamp. -/
def mkTx (s r : String) (a t : ℤ) : Transaction :=
  { transaction_id := s ++ r, sender_id := s, receiver_id := r, amount := a,
    timestampMs := t }

/-- Receiver names `a`, `b`, `c`, … used by the generated scenarios. -/
def rcv (i : Nat) : String := String.mk [Char.ofNat (97 + i)]

/-- Payroll scenario of claim C1: sender `P` issues 15 transactions of
exactly 1000 to 15 distinct receivers, 2000 s apart (all within 8 h,
hence within 10 h and within one 72 h window); `P` is in no cycle and the
coefficient of variation of its amounts is 0. -/
def payrollTxs : List Transaction :=
  (List.range 15).map (fun i => mkTx "P" (rcv i) 1000 (2000000 * (i : ℤ)))

/-- Overlapping-cycles scenario of claim C2: the directed triangles
`U→V→B→U`, `A→X→Y→A` and `A→B→W→A`.  The third cycle shares `A` with the
second and `B` with the first, and is discovered last. -/
def overlapTxs : List Transaction :=
  [mkTx "U" "V" 1 0, mkTx "A" "X" 1 1, mkTx "V" "B" 1 2, mkTx "B" "U" 1 3,
   mkTx "X" "Y" 1 4, mkTx "Y" "A" 1 5, mkTx "A" "B" 1 6, mkTx "B" "W" 1 7,
   mkTx "W" "A" 1 8]

/-- Two-directions scenario of claim C3: both directed triangles
`A→B→C→A` and `A→C→B→A` are present in the graph. -/
def twoDirTxs : List Transaction :=
  [mkTx "A" "B" 1 0, mkTx "B" "C" 1 1, mkTx "C" "A" 1 2, mkTx "A" "C" 1 3,
   mkTx "C" "B" 1 4, mkTx "B" "A" 1 5]

/-- Velocity-plus-payroll scenario of claim C9: sender `S` issues 20 equal
transactions to 20 distinct receivers within 20 minutes, so it is flagged by
the velocity detector (20 in 24 h) and the fan-out detector (20 distinct in
72 h), and the payroll filter (count 20, CV 0) then removes the `fan_out`
tag. -/
def velocityTxs : List Transaction :=
  (List.range 20).map (fun i => mkTx "S" (rcv i) 7 (60000 * (i : ℤ)))

-- =============================================
-- Claim theorems
-- =============================================

/-- Claim C1 (code bug evaluation): on the payroll scenario the report has
an empty `suspicious_accounts` list — the filter cleared `P` — and yet it
emits the fan-out ring `RING_001` whose member list is exactly `[P]`,
contradicting the claim that no ring contains `P`. -/
theorem c1_payroll_cleared_but_ringed :
    (analyzeTransactions payrollTxs 0 0).suspicious_accounts = [] ∧
    ((analyzeTransactions payrollTxs 0 0).fraud_rings.map
      (fun r => (r.ring_id, r.member_accounts, r.pattern_type))) =
      [("RING_001", ["P"], "fan_out")] := by
  constructor
  · decide
  · decide

/-- Claim C2 (code bug evaluation): on the overlapping-cycles scenario the
report contains two rings and account `B` is a member of both, violating
the at-most-one-ring invariant. -/
theorem c2_account_in_two_rings :
    ((analyzeTransactions overlapTxs 0 0).fraud_rings.map
      (fun r => (r.ring_id, r.member_accounts))) =
      [("RING_001", ["U", "V", "B"]), ("RING_002", ["A", "X", "Y", "B", "W"])] ∧
    "B" ∈ ((analyzeTransactions overlapTxs 0 0).fraud_rings.getD 0
      { ring_id := "", member_accounts := [], pattern_type := "",
        riskScoreTenths := 0 }).member_accounts ∧
    "B" ∈ ((analyzeTransactions overlapTxs 0 0).fraud_rings.getD 1
      { ring_id := "", member_accounts := [], pattern_type := "",
        riskScoreTenths := 0 }).member_accounts := by
  refine ⟨by decide, by decide, by decide⟩

/-- Claim C3 (counterexample): with both directed triangles `A→B→C→A` and
`A→C→B→A` present, the detector reports a single cycle, not two separate
entries — the second triangle is collapsed onto the first by the
sorted-member key. -/
theorem c3_direction_collapsed :
    pipelineCycles twoDirTxs = [["A", "B", "C"]] := by decide

/-- Claim C9 (counterexample): on the velocity-plus-payroll scenario the
emitted entry for `S` has `detected_patterns = [high_velocity]` and score
10, yet `S` carries `ring_id = RING_001` and is the member of the fan-out
ring — refuting "never a member of any fraud ring and has no ring_id". -/
theorem c9_velocity_only_pattern_in_ring :
    ((analyzeTransactions velocityTxs 0 0).suspicious_accounts.map
      (fun a => (a.account_id, a.suspicion_score, a.detected_patterns, a.ring_id))) =
      [("S", 10, ["high_velocity"], some "RING_001")] ∧
    ((analyzeTransactions velocityTxs 0 0).fraud_rings.map
      (fun r => (r.ring_id, r.member_accounts, r.pattern_type))) =
      [("RING_001", ["S"], "fan_out")] := by
  refine ⟨by decide, by decide⟩

/-- A reported cycle: between 3 and 5 members, all distinct. -/
def goodCycle (c : List String) : Prop := 3 ≤ c.length ∧ c.length ≤ 5 ∧ c.Nodup

/-- Invariant of the cycle-detection state: every recorded cycle is good,
their canonical keys are pairwise distinct, and every recorded key is in the
seen set. -/
def cycleInv (st : CycleSt) : Prop :=
  (∀ c ∈ st.cycles, goodCycle c) ∧
  (st.cycles.map cycleKey).Nodup ∧
  (∀ c ∈ st.cycles, cycleKey c ∈ st.seenCycles)

theorem emitCycle_inv {path : List String} {st : CycleSt}
    (h : cycleInv st) (hp : goodCycle path) : cycleInv (emitCycle path st) := by
  obtain ⟨h1, h2, h3⟩ := h
  by_cases hc : cycleKey path ∈ st.seenCycles
  · have heq : emitCycle path st = st := by simp [emitCycle, hc]
    rw [heq]; exact ⟨h1, h2, h3⟩
  · have heq : emitCycle path st =
        { cycles := st.cycles ++ [path],
          seenCycles := st.seenCycles ++ [cycleKey path] } := by
      simp [emitCycle, hc]
    rw [heq]
    have hnotin : cycleKey path ∉ st.cycles.map cycleKey := by
      intro hmem
      obtain ⟨c, hcmem, hck⟩ := List.mem_map.mp hmem
      exact hc (hck ▸ h3 c hcmem)
    refine ⟨?_, ?_, ?_⟩
    · intro c hcmem
      rcases List.mem_append.mp hcmem with hl | hr
      · exact h1 c hl
      · simpa [List.mem_singleton.mp hr] using hp
    · simp only [List.map_append, List.map_cons, List.map_nil]
      exact h2.append (List.nodup_singleton _)
        (by intro x hx hx2
            rw [List.mem_singleton.mp hx2] at hx
            exact hnotin hx)
    · intro c hcmem
      rcases List.mem_append.mp hcmem with hl | hr
      · exact List.mem_append.mpr (Or.inl (h3 c hl))
      · simp [List.mem_singleton.mp hr]

theorem neighLoop_inv
    (rec : String → List String → List String → CycleSt → CycleSt)
    (start : String) (depth : Nat) (hdep : depth ≤ 5)
    (hrec : ∀ nb v p s, cycleInv s → p.length = depth + 1 → p.Nodup →
      (∀ x ∈ p, x ∈ v) → cycleInv (rec nb v p s)) :
    ∀ (neighbors visited path : List String) (st : CycleSt),
      cycleInv st → path.length = depth → path.Nodup →
      (∀ x ∈ path, x ∈ visited) →
      cycleInv (neighLoop rec start depth neighbors visited path st) := by
  intro neighbors
  induction neighbors with
  | nil => intro visited path st h _ _ _; simpa [neighLoop] using h
  | cons nb rest ih =>
    intro visited path st h hlen hnd hsub
    simp only [neighLoop]
    apply ih
    · by_cases hcyc : nb = start ∧ 3 ≤ depth
      · rw [if_pos hcyc]
        exact emitCycle_inv h ⟨by omega, by omega, hnd⟩
      · rw [if_neg hcyc]
        by_cases hrecurse : ¬ visited.contains nb = true ∧ depth < 5
        · rw [if_pos hrecurse]
          apply hrec _ _ _ _ h
          · simp [hlen]
          · have hnbp : nb ∉ path := fun hmem =>
              hrecurse.1 (List.elem_iff.mpr (hsub nb hmem))
            exact hnd.append (List.nodup_singleton _)
              (by intro x hx hx2
                  rw [List.mem_singleton.mp hx2] at hx
                  exact hnbp hx)
          · intro x hx
            rcases List.mem_append.mp hx with hl | hr
            · exact List.mem_append.mpr (Or.inl (hsub x hl))
            · exact List.mem_append.mpr (Or.inr hr)
        · rw [if_neg hrecurse]
          exact h
    · exact hlen
    · exact hnd
    · exact hsub

theorem dfs_inv (adjacency : AdjMap) (start : String) :
    ∀ (fuel depth : Nat) (current : String) (visited path : List String)
      (st : CycleSt),
      cycleInv st → path.length = depth → path.Nodup →
      (∀ x ∈ path, x ∈ visited) →
      cycleInv (dfs adjacency start fuel depth current visited path st) := by
  intro fuel
  induction fuel with
  | zero => intro depth current visited path st h _ _ _; simpa [dfs] using h
  | succ fuel ih =>
    intro depth current visited path st h hlen hnd hsub
    simp only [dfs]
    by_cases hdep : 5 < depth
    · rw [if_pos hdep]; exact h
    · rw [if_neg hdep]
      exact neighLoop_inv _ start depth (Nat.le_of_not_lt hdep)
        (fun nb v p s hs hl hn hv => ih (depth + 1) nb v p s hs hl hn hv)
        (adjGet adjacency current) visited path st h hlen hnd hsub

theorem detectCycles_inv (adjacency : AdjMap) (nodeIds : List String) :
    ∀ st : CycleSt, cycleInv st →
      cycleInv (nodeIds.foldl
        (fun st start => dfs adjacency start 6 1 start [start] [start] st) st) := by
  induction nodeIds with
  | nil => intro st h; simpa using h
  | cons x xs ih =>
    intro st h
    simp only [List.foldl_cons]
    exact ih _ (dfs_inv adjacency x 6 1 x [x] [x] st h (by simp) (by simp) (by simp))

/-- Claim C7: every cycle reported by the detector has between 3 and 5
members, and its members are pairwise distinct; in particular no length-2
cycle, no cycle of length 6 or more, and no self-loop is ever reported. -/
theorem c7_cycle_length_bounds (adjacency : AdjMap) (nodeIds : List String) :
    ∀ c ∈ detectCycles adjacency nodeIds,
      3 ≤ c.length ∧ c.length ≤ 5 ∧ c.Nodup := by
  have h := detectCycles_inv adjacency nodeIds
    { cycles := [], seenCycles := [] } (by refine ⟨?_, ?_, ?_⟩ <;> simp)
  exact fun c hc => (h.1 c hc)

/-- Witness for C7 at the triangle scenario: the cycle `[A, B, C]` reported
on `A→B, B→C, C→A` has length 3 (within bounds) and distinct members. -/
theorem c7_cycle_length_bounds_witness :
    3 ≤ (["A", "B", "C"] : List String).length ∧
    (["A", "B", "C"] : List String).length ≤ 5 ∧
    (["A", "B", "C"] : List String).Nodup := by
  have htri : (["A", "B", "C"] : List String) ∈
      detectCycles (pipelineGraph [mkTx "A" "B" 1 0, mkTx "B" "C" 1 1,
        mkTx "C" "A" 1 2]).adjacency
        ((pipelineGraph [mkTx "A" "B" 1 0, mkTx "B" "C" 1 1,
          mkTx "C" "A" 1 2]).nodes.map (fun kv => kv.1)) := by decide
  exact c7_cycle_length_bounds _ _ _ htri

/-- Claim C3 (amended): the detector deduplicates by the sorted-member key,
which identifies rotations and directions alike — the canonical keys of the
reported cycles are pairwise distinct, so two directed cycles on the same
member set are never both reported. -/
theorem c3_cycle_keys_distinct (adjacency : AdjMap) (nodeIds : List String) :
    ((detectCycles adjacency nodeIds).map cycleKey).Nodup := by
  have h := detectCycles_inv adjacency nodeIds
    { cycles := [], seenCycles := [] } (by refine ⟨?_, ?_, ?_⟩ <;> simp)
  exact h.2.1

/-- The score contribution of one pattern tag, matching the scorer: any
`cycle_length_*` tag is worth 40, `fan_in` and `fan_out` 25, `shell_chain`
20, `high_velocity` 10. -/
def tagWeight (p : String) : ℤ :=
  if jsStartsWith p cycleWord then SCORE_CYCLE
  else if p = tagFanIn then SCORE_FAN_IN
  else if p = tagFanOut then SCORE_FAN_OUT
  else if p = tagShell then SCORE_SHELL
  else if p = tagVelocity then SCORE_VELOCITY
  else 0

/-- The total contribution of a tag list. -/
def patternScore (ps : List String) : ℤ := (ps.map tagWeight).sum

/-- The closed set of pattern tags the engine can emit. -/
def validTag (p : String) : Prop :=
  p ∈ [cycleTag 3, cycleTag 4, cycleTag 5, tagFanIn, tagFanOut, tagShell, tagVelocity]

instance : DecidablePred validTag := fun p => by unfold validTag; infer_instance

/-- Well-formedness of the analysis fields of a node, as established by the
scorer and preserved by the filter: distinct valid tags, score equal to the
capped pattern contribution, suspicion flag equal to positivity of the raw
contribution. -/
def nodeWF (n : GraphNode) : Prop :=
  n.detectedPatterns.Nodup ∧
  (∀ p ∈ n.detectedPatterns, validTag p) ∧
  n.suspicionScore = min 100 (patternScore n.detectedPatterns) ∧
  n.isSuspicious = decide (0 < patternScore n.detectedPatterns)

theorem scoreOne_wf (cycleNodes : List (String × CycleInfo))
    (fi fo sh hv : List String) (id : String) (node : GraphNode)
    (hcy : ∀ info, mapFind cycleNodes id = some info →
      info.length = 3 ∨ info.length = 4 ∨ info.length = 5) :
    nodeWF (scoreOne cycleNodes fi fo sh hv id node) := by
  rcases hfind : mapFind cycleNodes id with _ | info
  · rcases Bool.eq_false_or_eq_true (fi.contains id) with h1 | h1 <;>
      rcases Bool.eq_false_or_eq_true (fo.contains id) with h2 | h2 <;>
      rcases Bool.eq_false_or_eq_true (sh.contains id) with h3 | h3 <;>
      rcases Bool.eq_false_or_eq_true (hv.contains id) with h4 | h4 <;>
      simp only [scoreOne, hfind, h1, h2, h3, h4, Bool.false_eq_true, if_true,
        if_false, ite_true, ite_false, Bool.true_eq_false] <;>
      (refine ⟨?_, ?_, ?_, ?_⟩ <;> (try rw [decide_eq_decide]) <;>
        simp only [] <;> decide)
  · rcases hcy info hfind with hl | hl | hl <;>
      rcases Bool.eq_false_or_eq_true (fi.contains id) with h1 | h1 <;>
      rcases Bool.eq_false_or_eq_true (fo.contains id) with h2 | h2 <;>
      rcases Bool.eq_false_or_eq_true (sh.contains id) with h3 | h3 <;>
      rcases Bool.eq_false_or_eq_true (hv.contains id) with h4 | h4 <;>
      simp only [scoreOne, hfind, hl, h1, h2, h3, h4, Bool.false_eq_true, if_true,
        if_false, ite_true, ite_false, Bool.true_eq_false] <;>
      (refine ⟨?_, ?_, ?_, ?_⟩ <;> (try rw [decide_eq_decide]) <;>
        simp only [] <;> decide)

theorem tagWeight_pos {p : String} (h : validTag p) : 0 < tagWeight p := by
  unfold validTag at h
  fin_cases h <;> decide

theorem patternScore_nonneg {ps : List String}
    (h : ∀ p ∈ ps, validTag p) : 0 ≤ patternScore ps := by
  refine List.sum_nonneg ?_
  intro x hx
  obtain ⟨p, hp, rfl⟩ := List.mem_map.mp hx
  exact le_of_lt (tagWeight_pos (h p hp))

theorem patternScore_pos {ps : List String}
    (h : ∀ p ∈ ps, validTag p) (hne : ps ≠ []) : 0 < patternScore ps := by
  refine List.sum_pos _ ?_ ?_
  · intro x hx
    obtain ⟨p, hp, rfl⟩ := List.mem_map.mp hx
    exact tagWeight_pos (h p hp)
  · intro hmap
    exact hne (List.map_eq_nil_iff.mp hmap)

theorem sublist_sum_le {l1 l2 : List ℤ} (h : l1.Sublist l2)
    (hpos : ∀ x ∈ l2, 0 ≤ x) : l1.sum ≤ l2.sum := by
  induction h with
  | slnil => simp
  | cons a hsl ih =>
    have := ih (fun x hx => hpos x (List.mem_cons_of_mem a hx))
    have ha := hpos a (List.mem_cons_self a _)
    simp only [List.sum_cons]
    omega
  | cons₂ a hsl ih =>
    have := ih (fun x hx => hpos x (List.mem_cons_of_mem a hx))
    simp only [List.sum_cons]
    omega

/-- A list of distinct valid tags none of which is a cycle tag scores at
most 80 (the four non-cycle contributions). -/
theorem patternScore_le_of_nocycle {ps : List String}
    (hnd : ps.Nodup) (hval : ∀ p ∈ ps, validTag p)
    (hnc : ∀ p ∈ ps, jsStartsWith p cycleWord = false) :
    patternScore ps ≤ 80 := by
  have hsub : ps ⊆ [tagFanIn, tagFanOut, tagShell, tagVelocity] := by
    intro p hp
    have h7 := hval p hp
    have hncp := hnc p hp
    unfold validTag at h7
    fin_cases h7
    · exact absurd hncp (by decide)
    · exact absurd hncp (by decide)
    · exact absurd hncp (by decide)
    · simp
    · simp
    · simp
    · simp
  obtain ⟨l, hperm, hsl⟩ := hnd.subperm hsub
  have h1 : (ps.map tagWeight).sum = (l.map tagWeight).sum :=
    ((hperm.map tagWeight).sum_eq).symm
  have h2 : (l.map tagWeight).sum ≤
      (([tagFanIn, tagFanOut, tagShell, tagVelocity].map tagWeight)).sum := by
    refine sublist_sum_le (hsl.map tagWeight) ?_
    intro x hx
    obtain ⟨p, hp, rfl⟩ := List.mem_map.mp hx
    fin_cases hp <;> decide
  have h3 : (([tagFanIn, tagFanOut, tagShell, tagVelocity].map tagWeight)).sum = 80 := by
    decide
  unfold patternScore
  omega

/-- Removing one occurrence of a member from a duplicate-free list removes
exactly its contribution. -/
theorem patternScore_filter_ne {ps : List String} (a : String)
    (hnd : ps.Nodup) (ha : a ∈ ps) :
    patternScore ps = tagWeight a + patternScore (ps.filter (fun p => p ≠ a)) := by
  have hperm : ps.Perm (a :: ps.erase a) := List.perm_cons_erase ha
  have hsum : patternScore ps = tagWeight a + patternScore (ps.erase a) := by
    have := (hperm.map tagWeight).sum_eq
    simpa [patternScore] using this
  have hfil : ps.filter (fun p => decide (p ≠ a)) = ps.erase a := by
    rw [hnd.erase_eq_filter a]
    refine List.filter_congr ?_
    intro x _
    by_cases h : x = a <;> simp [h, bne]
  rw [hsum, hfil]

theorem filterOne_wf (amounts : List ℤ) (node : GraphNode)
    (h : nodeWF node) : nodeWF (filterOne amounts node) := by
  obtain ⟨hnd, hval, hsc, hsus⟩ := h
  unfold filterOne
  by_cases hpay : 10 ≤ amounts.length ∧ payrollCv amounts = true
  · rw [if_pos hpay]
    by_cases hskip : ¬ node.detectedPatterns.contains tagFanOut = true ∨
        node.detectedPatterns.any (fun p => jsStartsWith p cycleWord) = true
    · rw [if_pos hskip]
      exact ⟨hnd, hval, hsc, hsus⟩
    · rw [if_neg hskip]
      push_neg at hskip
      obtain ⟨hfo, hnocyc⟩ := hskip
      simp only []
      have hfoMem : tagFanOut ∈ node.detectedPatterns := List.elem_iff.mp hfo
      have hnc : ∀ p ∈ node.detectedPatterns, jsStartsWith p cycleWord = false := by
        intro p hp
        rcases Bool.eq_false_or_eq_true (jsStartsWith p cycleWord) with h | h
        · exact absurd (List.any_eq_true.mpr ⟨p, hp, h⟩) hnocyc
        · exact h
      have hbound : patternScore node.detectedPatterns ≤ 80 :=
        patternScore_le_of_nocycle hnd hval hnc
      have hdecomp := patternScore_filter_ne tagFanOut hnd hfoMem
      have hwfo : tagWeight tagFanOut = 25 := by decide
      have hnn : 0 ≤ patternScore node.detectedPatterns := patternScore_nonneg hval
      have hnnf : 0 ≤ patternScore (node.detectedPatterns.filter (fun p => p ≠ tagFanOut)) :=
        patternScore_nonneg (fun p hp => hval p (List.mem_of_mem_filter hp))
      have hvalf : ∀ p ∈ node.detectedPatterns.filter (fun p => p ≠ tagFanOut), validTag p :=
        fun p hp => hval p (List.mem_of_mem_filter hp)
      have hndf : (node.detectedPatterns.filter (fun p => p ≠ tagFanOut)).Nodup :=
        hnd.filter _
      by_cases hemp : (node.detectedPatterns.filter (fun p => p ≠ tagFanOut)).length = 0
      · rw [if_pos hemp]
        have hfe : node.detectedPatterns.filter (fun p => p ≠ tagFanOut) = [] :=
          List.length_eq_zero.mp hemp
        refine ⟨?_, ?_, ?_, ?_⟩
        · simp only []; rw [hfe]; decide
        · simp only []; rw [hfe]; decide
        · simp only []; rw [hfe]; decide
        · simp only []
          rw [hfe]
          exact (decide_eq_false (by decide)).symm
      · rw [if_neg hemp]
        have hfne : node.detectedPatterns.filter (fun p => p ≠ tagFanOut) ≠ [] :=
          fun hh => hemp (by rw [hh]; rfl)
        have hposf : 0 < patternScore (node.detectedPatterns.filter (fun p => p ≠ tagFanOut)) :=
          patternScore_pos hvalf hfne
        have hmin : min 100 (patternScore node.detectedPatterns) =
            patternScore node.detectedPatterns := min_eq_right (by omega)
        have hminf : min 100
            (patternScore (node.detectedPatterns.filter (fun p => p ≠ tagFanOut))) =
            patternScore (node.detectedPatterns.filter (fun p => p ≠ tagFanOut)) := by
          refine min_eq_right ?_
          rw [hdecomp, hwfo] at hbound
          omega
        refine ⟨hndf, hvalf, ?_, ?_⟩
        · simp only [SCORE_FAN_OUT]
          rw [hsc, hmin, hdecomp, hwfo, hminf]
          rw [max_eq_right (by omega)]
          omega
        · simp only []
          rw [hsus, decide_eq_decide]
          constructor
          · intro _; exact hposf
          · intro _
            omega
  · rw [if_neg hpay]
    exact ⟨hnd, hval, hsc, hsus⟩

theorem mem_mapSet {α : Type} {m : List (String × α)} {k : String} {v : α}
    {kv : String × α} (h : kv ∈ mapSet m k v) : kv ∈ m ∨ kv = (k, v) := by
  unfold mapSet at h
  by_cases hany : m.any (fun p => p.1 == k) = true
  · rw [if_pos hany] at h
    obtain ⟨p, hp, hpe⟩ := List.mem_map.mp h
    by_cases hpk : (p.1 == k) = true
    · rw [if_pos hpk] at hpe
      exact Or.inr hpe.symm
    · rw [if_neg hpk] at hpe
      exact Or.inl (hpe ▸ hp)
  · rw [if_neg hany] at h
    rcases List.mem_append.mp h with hl | hr
    · exact Or.inl hl
    · exact Or.inr (List.mem_singleton.mp hr)

theorem mapFind_some_mem {α : Type} {m : List (String × α)} {k : String} {v : α}
    (h : mapFind m k = some v) : (k, v) ∈ m := by
  unfold mapFind at h
  rcases hf : m.find? (fun p => p.1 == k) with _ | q
  · rw [hf] at h; cases h
  · rw [hf] at h
    have hq2 : q.2 = v := Option.some.inj h
    have hqk := List.find?_some hf
    have hq : q = (k, v) := by
      obtain ⟨q1, q2⟩ := q
      simp only at hq2 hqk
      rw [Prod.mk.injEq]
      exact ⟨eq_of_beq hqk, hq2⟩
    exact hq ▸ List.mem_of_find?_eq_some hf

theorem mapFind_nil {α : Type} (k : String) :
    mapFind ([] : List (String × α)) k = none := rfl

theorem mapFind_cons {α : Type} (p : String × α) (m : List (String × α))
    (k : String) :
    mapFind (p :: m) k = if p.1 == k then some p.2 else mapFind m k := by
  by_cases h : (p.1 == k) = true
  · simp [mapFind, List.find?_cons_of_pos, h]
  · rw [if_neg h]
    unfold mapFind
    rw [List.find?_cons_of_neg]
    simpa using h

theorem mapFind_append_single {α : Type} (m : List (String × α))
    (k : String) (v : α) (k' : String)
    (hnone : ∀ p ∈ m, (p.1 == k) = false) :
    mapFind (m ++ [(k, v)]) k' = if k' = k then some v else mapFind m k' := by
  induction m with
  | nil =>
    by_cases hk' : k' = k
    · simp [mapFind_cons, hk']
    · have : (k == k') = false := beq_false_of_ne (fun hh => hk' hh.symm)
      simp [mapFind_cons, this, hk']
  | cons p rest ih =>
    have hlem := ih (fun q hq => hnone q (List.mem_cons_of_mem p hq))
    have hpk := hnone p (List.mem_cons_self p rest)
    rw [List.cons_append, mapFind_cons, mapFind_cons, hlem]
    by_cases hpk' : (p.1 == k') = true
    · have hk' : ¬ k' = k := by
        intro hh
        subst hh
        rw [hpk] at hpk'
        cases hpk'
      rw [if_pos hpk', if_pos hpk', if_neg hk']
    · rw [if_neg hpk', if_neg hpk']

theorem mapFind_map_upd_ne {α : Type} (m : List (String × α))
    (k : String) (v : α) (k' : String) (hk' : k' ≠ k) :
    mapFind (m.map (fun p => if p.1 == k then (k, v) else p)) k' = mapFind m k' := by
  induction m with
  | nil => rfl
  | cons p rest ih =>
    rw [List.map_cons, mapFind_cons, mapFind_cons]
    by_cases hpk : (p.1 == k) = true
    · rw [if_pos hpk]
      have h1 : ((k, v).1 == k') = false := beq_false_of_ne (fun hh => hk' hh.symm)
      have h2 : (p.1 == k') = false := by
        rw [eq_of_beq hpk]
        exact beq_false_of_ne (fun hh => hk' hh.symm)
      rw [h1, h2]
      simpa using ih
    · rw [if_neg hpk]
      by_cases hpk' : (p.1 == k') = true
      · rw [if_pos hpk', if_pos hpk']
      · rw [if_neg hpk', if_neg hpk']
        exact ih

theorem mapFind_map_upd_eq {α : Type} (m : List (String × α))
    (k : String) (v : α) (hex : ∃ p ∈ m, (p.1 == k) = true) :
    mapFind (m.map (fun p => if p.1 == k then (k, v) else p)) k = some v := by
  induction m with
  | nil =>
    obtain ⟨p, hp, _⟩ := hex
    cases hp
  | cons p rest ih =>
    rw [List.map_cons, mapFind_cons]
    by_cases hpk : (p.1 == k) = true
    · rw [if_pos hpk]
      simp
    · rw [if_neg hpk]
      have h2 : (p.1 == k) = false := by simpa using hpk
      rw [h2]
      simp only [if_false, Bool.false_eq_true]
      apply ih
      obtain ⟨q, hq, hqk⟩ := hex
      rcases List.mem_cons.mp hq with rfl | hrest
      · exact absurd hqk hpk
      · exact ⟨q, hrest, hqk⟩

/-- Updating a key changes exactly that key's lookup. -/
theorem mapFind_mapSet {α : Type} (m : List (String × α)) (k : String) (v : α)
    (k' : String) :
    mapFind (mapSet m k v) k' = if k' = k then some v else mapFind m k' := by
  unfold mapSet
  by_cases hany : m.any (fun p => p.1 == k) = true
  · rw [if_pos hany]
    by_cases hk' : k' = k
    · subst hk'
      rw [if_pos rfl]
      exact mapFind_map_upd_eq m k' v (List.any_eq_true.mp hany)
    · rw [if_neg hk']
      exact mapFind_map_upd_ne m k v k' hk'
  · rw [if_neg hany]
    refine mapFind_append_single m k v k' ?_
    intro p hp
    rcases Bool.eq_false_or_eq_true (p.1 == k) with h | h
    · exact absurd (List.any_eq_true.mpr ⟨p, hp, h⟩) hany
    · exact h

/-- Every node of the table satisfies `nodeWF`. -/
def allWF (nodes : NodeMap) : Prop := ∀ kv ∈ nodes, nodeWF kv.2

theorem allWF_mapSet {nodes : NodeMap} {k : String} {v : GraphNode}
    (h : allWF nodes) (hv : nodeWF v) : allWF (mapSet nodes k v) := by
  intro kv hkv
  rcases mem_mapSet hkv with hm | he
  · exact h kv hm
  · rw [he]; exact hv

/-- Generic preservation of a per-value property through a `mapFind`-guarded
fold (used for the cycle-node map). -/
theorem foldl_mapFind_pres {α β : Type} (Q : α → Prop) (l : List β)
    (step : List (String × α) → β → List (String × α))
    (hstep : ∀ m b, b ∈ l → ∀ id info, mapFind (step m b) id = some info →
      mapFind m id = some info ∨ Q info) :
    ∀ m id info, mapFind (l.foldl step m) id = some info →
      mapFind m id = some info ∨ Q info := by
  induction l with
  | nil => intro m id info h; exact Or.inl h
  | cons b rest ih =>
    intro m id info h
    simp only [List.foldl_cons] at h
    rcases ih (fun m' b' hb' => hstep m' b' (List.mem_cons_of_mem b hb'))
        (step m b) id info h with h1 | h1
    · exact hstep m b (List.mem_cons_self b rest) id info h1
    · exact Or.inr h1

/-- Every entry of the `cycleNodes` map records the length of one of the
detected cycles. -/
theorem buildCycleNodes_mem (cycles : List (List String)) (id : String)
    (info : CycleInfo) (h : mapFind (buildCycleNodes cycles) id = some info) :
    ∃ c ∈ cycles, info.length = c.length := by
  unfold buildCycleNodes at h
  have := foldl_mapFind_pres (fun i => ∃ c ∈ cycles, i.length = c.length) cycles _
    ?_ [] id info h
  · rcases this with h1 | h1
    · simp [mapFind] at h1
    · exact h1
  · intro m cycle hcyc id' info' hfind
    have := foldl_mapFind_pres (fun i => ∃ c ∈ cycles, i.length = c.length) cycle _
      ?_ m id' info' hfind
    · exact this
    · intro m' acc _ id'' info'' hfind'
      rcases hmf : mapFind m' acc with _ | old
      · rw [hmf] at hfind'
        simp only [] at hfind'
        rw [mapFind_mapSet] at hfind'
        by_cases hid : id'' = acc
        · rw [if_pos hid] at hfind'
          exact Or.inr ⟨cycle, hcyc, by rw [← Option.some.inj hfind']⟩
        · rw [if_neg hid] at hfind'
          exact Or.inl hfind'
      · rw [hmf] at hfind'
        simp only [] at hfind'
        by_cases hlt : cycle.length < old.length
        · rw [if_pos hlt] at hfind'
          rw [mapFind_mapSet] at hfind'
          by_cases hid : id'' = acc
          · rw [if_pos hid] at hfind'
            exact Or.inr ⟨cycle, hcyc, by rw [← Option.some.inj hfind']⟩
          · rw [if_neg hid] at hfind'
            exact Or.inl hfind'
        · rw [if_neg hlt] at hfind'
          exact Or.inl hfind'

/-- The scorer establishes well-formedness on the engine pipeline (the cycle
lengths fed to it come from the detector, hence lie in `[3, 5]`). -/
theorem nodesAfterScoring_wf (transactions : List Transaction) :
    allWF (nodesAfterScoring transactions) := by
  intro kv hkv
  unfold nodesAfterScoring scoreAccounts at hkv
  obtain ⟨kv0, hkv0, rfl⟩ := List.mem_map.mp hkv
  apply scoreOne_wf
  intro info hinfo
  obtain ⟨c, hc, hlen⟩ := buildCycleNodes_mem _ _ _ hinfo
  have hginv := detectCycles_inv
    (pipelineGraph transactions).adjacency
    ((pipelineGraph transactions).nodes.map (fun kv => kv.1))
    { cycles := [], seenCycles := [] } (by refine ⟨?_, ?_, ?_⟩ <;> simp)
  obtain ⟨hg1, hg2, _⟩ := hginv.1 c hc
  omega

theorem filterFalsePositives_wf (nodes : NodeMap) (edges : List GraphEdge)
    (h : allWF nodes) : allWF (filterFalsePositives nodes edges) := by
  unfold filterFalsePositives
  generalize bySenderAmounts edges = groups
  induction groups generalizing nodes with
  | nil => exact h
  | cons g rest ih =>
    simp only [List.foldl_cons]
    apply ih
    rcases hf : mapFind nodes g.1 with _ | node
    · exact h
    · exact allWF_mapSet h (filterOne_wf g.2 node (h (g.1, node) (mapFind_some_mem hf)))

theorem allWF_foldRingUpdate (members : List String) (rid : String)
    (nodes : NodeMap) (h : allWF nodes) :
    allWF (members.foldl
      (fun ns acc =>
        match mapFind ns acc with
        | some n => mapSet ns acc { n with ringId := some rid }
        | none => ns)
      nodes) := by
  induction members generalizing nodes with
  | nil => exact h
  | cons a rest ih =>
    simp only [List.foldl_cons]
    apply ih
    rcases hf : mapFind nodes a with _ | n
    · exact h
    · exact allWF_mapSet h (h (a, n) (mapFind_some_mem hf))

theorem allWF_foldRingUpdateFalsy (members : List String) (rid : String)
    (nodes : NodeMap) (h : allWF nodes) :
    allWF (members.foldl
      (fun ns acc =>
        match mapFind ns acc with
        | some n =>
          if ringIdFalsy n.ringId then mapSet ns acc { n with ringId := some rid }
          else ns
        | none => ns)
      nodes) := by
  induction members generalizing nodes with
  | nil => exact h
  | cons a rest ih =>
    simp only [List.foldl_cons]
    apply ih
    rcases hf : mapFind nodes a with _ | n
    · exact h
    · simp only []
      by_cases hfal : ringIdFalsy n.ringId = true
      · rw [if_pos hfal]
        exact allWF_mapSet h (h (a, n) (mapFind_some_mem hf))
      · rw [if_neg hfal]; exact h

theorem mkCycleRings_fold_wf (groups : List (String × List String))
    (rings : List FraudRing) (nodes : NodeMap) (h : allWF nodes) :
    allWF (groups.foldl mkCycleRings (rings, nodes)).2 := by
  induction groups generalizing rings nodes with
  | nil => exact h
  | cons g rest ih =>
    simp only [List.foldl_cons]
    exact ih _ _ (allWF_foldRingUpdate g.2 g.1 nodes h)

theorem patternRing_wf (ptype : String) (arr : List String)
    (counter : Nat) (rings : List FraudRing) (nodes : NodeMap)
    (h : allWF nodes) : allWF (patternRing ptype arr (counter, rings, nodes)).2.2 := by
  unfold patternRing
  simp only []
  by_cases hlen : arr.length = 0
  · rw [if_pos hlen]; exact h
  · rw [if_neg hlen]
    exact allWF_foldRingUpdateFalsy arr _ nodes h

theorem assembleFraudRings_wf (cycles : List (List String))
    (fi fo sh : List String) (nodes : NodeMap) (h : allWF nodes) :
    allWF (assembleFraudRings cycles fi fo sh nodes).2 := by
  unfold assembleFraudRings
  refine patternRing_wf _ _ _ _ _ (patternRing_wf _ _ _ _ _ (patternRing_wf _ _ _ _ _
    (mkCycleRings_fold_wf _ _ _ h)))

/-- The invariant of claim C4 for one node. -/
def nodeInv (n : GraphNode) : Prop :=
  (n.isSuspicious = true ↔ 0 < n.suspicionScore) ∧
  (0 < n.suspicionScore ↔ n.detectedPatterns ≠ []) ∧
  0 ≤ n.suspicionScore ∧ n.suspicionScore ≤ 100

theorem nodeWF_nodeInv {n : GraphNode} (h : nodeWF n) : nodeInv n := by
  obtain ⟨hnd, hval, hsc, hsus⟩ := h
  have hnn := patternScore_nonneg hval
  refine ⟨?_, ?_, ?_, ?_⟩
  · rw [hsus, hsc]
    constructor
    · intro hd
      have hps := of_decide_eq_true hd
      rw [lt_min_iff]
      exact ⟨by norm_num, hps⟩
    · intro h100
      have : 0 < patternScore n.detectedPatterns :=
        lt_of_lt_of_le h100 (min_le_right _ _)
      exact decide_eq_true this
  · rw [hsc]
    constructor
    · intro h100 hemp
      have h0 : patternScore n.detectedPatterns = 0 := by rw [hemp]; rfl
      rw [h0] at h100
      norm_num at h100
    · intro hne
      rw [lt_min_iff]
      exact ⟨by norm_num, patternScore_pos hval hne⟩
  · rw [hsc]
    exact le_min (by norm_num) hnn
  · rw [hsc]
    exact min_le_left _ _

/-- Claim C4: for every input, every node satisfies
`is_suspicious ⇔ score > 0 ⇔ detected_patterns ≠ ∅` and
`score ∈ [0, 100]` — after scoring, after the payroll false-positive
filter, and in the final node table of the emitted report. -/
theorem c4_node_invariants (transactions : List Transaction) :
    (∀ kv ∈ nodesAfterScoring transactions, nodeInv kv.2) ∧
    (∀ kv ∈ nodesAfterFilter transactions, nodeInv kv.2) ∧
    (∀ kv ∈ (analyzeTransactions transactions 0 0).nodes, nodeInv kv.2) := by
  have h1 := nodesAfterScoring_wf transactions
  have h2 : allWF (nodesAfterFilter transactions) :=
    filterFalsePositives_wf _ _ h1
  have h3 : allWF (pipelineRings transactions).2 := by
    unfold pipelineRings
    exact assembleFraudRings_wf _ _ _ _ _ h2
  exact ⟨fun kv hkv => nodeWF_nodeInv (h1 kv hkv),
    fun kv hkv => nodeWF_nodeInv (h2 kv hkv),
    fun kv hkv => nodeWF_nodeInv (h3 kv hkv)⟩

/-- Witness for C4 at a one-transaction input: the first node of each stage
table satisfies the invariant. -/
theorem c4_node_invariants_witness :
    nodeInv ((nodesAfterScoring [mkTx "A" "B" 5 0]).getD 0 ("", emptyNode "A")).2 ∧
    nodeInv ((nodesAfterFilter [mkTx "A" "B" 5 0]).getD 0 ("", emptyNode "A")).2 ∧
    nodeInv (((analyzeTransactions [mkTx "A" "B" 5 0] 0 0).nodes).getD 0 ("", emptyNode "A")).2 := by
  refine ⟨(c4_node_invariants [mkTx "A" "B" 5 0]).1 _ ?_,
    (c4_node_invariants [mkTx "A" "B" 5 0]).2.1 _ ?_,
    (c4_node_invariants [mkTx "A" "B" 5 0]).2.2 _ ?_⟩ <;> decide

theorem mapFind_eq_none_iff {α : Type} {m : List (String × α)} {k : String} :
    mapFind m k = none ↔ ∀ p ∈ m, (p.1 == k) = false := by
  unfold mapFind
  constructor
  · intro h p hp
    rcases hf : m.find? (fun p => p.1 == k) with _ | q
    · have := List.find?_eq_none.mp hf p hp
      simpa using this
    · rw [hf] at h; cases h
  · intro h
    rw [List.find?_eq_none.mpr (fun p hp => by simp [h p hp])]
    rfl

theorem mapFind_none_of_not_key {α : Type} {m : List (String × α)} {k : String}
    (h : ∀ p ∈ m, p.1 ≠ k) : mapFind m k = none :=
  mapFind_eq_none_iff.mpr (fun p hp => beq_false_of_ne (h p hp))

theorem mapSet_keys {α : Type} (m : List (String × α)) (k : String) (v : α)
    (hsome : (mapFind m k).isSome = true) :
    (mapSet m k v).map Prod.fst = m.map Prod.fst := by
  unfold mapSet
  have hany : m.any (fun p => p.1 == k) = true := by
    rcases hf : mapFind m k with _ | w
    · rw [hf] at hsome; cases hsome
    · exact List.any_eq_true.mpr
        ⟨(k, w), mapFind_some_mem hf, by simp⟩
  rw [if_pos hany, List.map_map]
  refine List.map_congr_left ?_
  intro p _
  by_cases hpk : (p.1 == k) = true
  · simp [hpk, eq_of_beq hpk]
  · have hne : ¬ p.1 = k := fun hh => hpk (by simp [hh])
    simp [hne]

theorem groupPush_keys_nodup {α : Type} (m : List (String × List α)) (k : String)
    (v : α) (h : (m.map Prod.fst).Nodup) :
    ((groupPush m k v).map Prod.fst).Nodup := by
  unfold groupPush
  rcases hf : mapFind m k with _ | l
  · have hnk : ∀ p ∈ m, (p.1 == k) = false := mapFind_eq_none_iff.mp hf
    rw [List.map_append]
    refine h.append (List.nodup_singleton _) ?_
    intro x hx hk
    obtain ⟨p, hp, rfl⟩ := List.mem_map.mp hx
    have hxk : p.1 = k := by simpa using hk
    have := hnk p hp
    rw [hxk] at this
    simp at this
  · rw [mapSet_keys _ _ _ (by rw [hf]; rfl)]
    exact h

theorem bySenderAmounts_keys_nodup (edges : List GraphEdge) :
    ((bySenderAmounts edges).map Prod.fst).Nodup := by
  unfold bySenderAmounts
  have hgen : ∀ (es : List GraphEdge) (m : List (String × List ℤ)),
      (m.map Prod.fst).Nodup →
      ((es.foldl (fun m e => groupPush m e.source e.amount) m).map Prod.fst).Nodup := by
    intro es
    induction es with
    | nil => intro m h; exact h
    | cons e rest ih =>
      intro m h
      exact ih _ (groupPush_keys_nodup m e.source e.amount h)
  exact hgen edges [] (by simp)

/-- Characterization of the payroll filter as a per-key map: the value at a
key is transformed by `filterOne` with that sender's amounts, and keys not
in `bySenderAmounts` are untouched. -/
theorem filterFalsePositives_find (nodes : NodeMap) (edges : List GraphEdge)
    (id : String) :
    mapFind (filterFalsePositives nodes edges) id =
      match mapFind (bySenderAmounts edges) id with
      | none => mapFind nodes id
      | some am => (mapFind nodes id).map (filterOne am) := by
  unfold filterFalsePositives
  have hnd := bySenderAmounts_keys_nodup edges
  generalize bySenderAmounts edges = groups at hnd ⊢
  induction groups generalizing nodes with
  | nil => simp [mapFind]
  | cons g rest ih =>
    simp only [List.foldl_cons]
    have hndr : (rest.map Prod.fst).Nodup := (List.nodup_cons.mp hnd).2
    have hgnr : g.1 ∉ rest.map Prod.fst := (List.nodup_cons.mp hnd).1
    by_cases hid : id = g.1
    · subst hid
      have hrest : mapFind rest g.1 = none := by
        refine mapFind_none_of_not_key ?_
        intro p hp hk
        exact hgnr (hk ▸ List.mem_map_of_mem Prod.fst hp)
      rw [mapFind_cons]
      rw [if_pos (by simp), ih _ hndr, hrest]
      rcases hf : mapFind nodes g.1 with _ | node
      · simp [hf]
      · rw [mapFind_mapSet]
        simp [hf]
    · rw [mapFind_cons, if_neg (by simpa using fun hh => hid hh.symm), ih _ hndr]
      have hstep : mapFind
          (match mapFind nodes g.1 with
            | none => nodes
            | some node => mapSet nodes g.1 (filterOne g.2 node)) id =
          mapFind nodes id := by
        rcases hf : mapFind nodes g.1 with _ | node
        · rfl
        · simp only []
          rw [mapFind_mapSet, if_neg hid]
      rcases mapFind rest id with _ | am
      · simp only []
        exact hstep
      · simp only []
        rw [hstep]

/-- The three mutable fields aside, `filterOne` is the identity, and it takes
the fan-out branch only on a payroll-shaped amount list. -/
theorem filterOne_frame (am : List ℤ) (n : GraphNode) :
    ((filterOne am n).id = n.id ∧
     (filterOne am n).totalTransactions = n.totalTransactions ∧
     (filterOne am n).totalSent = n.totalSent ∧
     (filterOne am n).totalReceived = n.totalReceived ∧
     (filterOne am n).uniqueSenders = n.uniqueSenders ∧
     (filterOne am n).uniqueReceivers = n.uniqueReceivers ∧
     (filterOne am n).ringId = n.ringId) ∧
    ((filterOne am n).detectedPatterns = n.detectedPatterns ∨
     (filterOne am n).detectedPatterns =
       n.detectedPatterns.filter (fun p => p ≠ tagFanOut)) ∧
    (filterOne am n ≠ n → 10 ≤ am.length ∧ payrollCv am = true) := by
  unfold filterOne
  by_cases hpay : 10 ≤ am.length ∧ payrollCv am = true
  · rw [if_pos hpay]
    by_cases hskip : ¬ n.detectedPatterns.contains tagFanOut = true ∨
        n.detectedPatterns.any (fun p => jsStartsWith p cycleWord) = true
    · rw [if_pos hskip]
      exact ⟨⟨rfl, rfl, rfl, rfl, rfl, rfl, rfl⟩, Or.inl rfl, fun _ => hpay⟩
    · rw [if_neg hskip]
      simp only []
      by_cases hemp :
          (n.detectedPatterns.filter (fun p => p ≠ tagFanOut)).length = 0
      · rw [if_pos hemp]
        exact ⟨⟨rfl, rfl, rfl, rfl, rfl, rfl, rfl⟩, Or.inr rfl, fun _ => hpay⟩
      · rw [if_neg hemp]
        exact ⟨⟨rfl, rfl, rfl, rfl, rfl, rfl, rfl⟩, Or.inr rfl, fun _ => hpay⟩
  · rw [if_neg hpay]
    exact ⟨⟨rfl, rfl, rfl, rfl, rfl, rfl, rfl⟩, Or.inl rfl, fun hne => absurd rfl hne⟩

/-- The payroll predicate of the filter for a given account: it is a sender
and its outbound amounts have count at least 10 and coefficient of
variation below 0.05. -/
def isPayrollSender (edges : List GraphEdge) (id : String) : Prop :=
  match mapFind (bySenderAmounts edges) id with
  | none => False
  | some amounts => 10 ≤ amounts.length ∧ payrollCv amounts = true

/-- Claim C10: the payroll filter is frame-bounded.  The set of table keys is
unchanged; for every node the counter fields, counterparty sets and ring id
are identical before and after; the pattern list either is unchanged or has
exactly the fan-out tag removed; and any node that changes at all belongs to
a sender satisfying the payroll predicate.  (The filter never touches the
edge list: `filterFalsePositives` only returns a node table.) -/
theorem c10_filter_frame (nodes : NodeMap) (edges : List GraphEdge) :
    (∀ id, (mapFind (filterFalsePositives nodes edges) id).isSome =
      (mapFind nodes id).isSome) ∧
    (∀ id n n', mapFind nodes id = some n →
      mapFind (filterFalsePositives nodes edges) id = some n' →
      (n'.id = n.id ∧ n'.totalTransactions = n.totalTransactions ∧
       n'.totalSent = n.totalSent ∧ n'.totalReceived = n.totalReceived ∧
       n'.uniqueSenders = n.uniqueSenders ∧ n'.uniqueReceivers = n.uniqueReceivers ∧
       n'.ringId = n.ringId) ∧
      (n'.detectedPatterns = n.detectedPatterns ∨
       n'.detectedPatterns = n.detectedPatterns.filter (fun p => p ≠ tagFanOut)) ∧
      (n' ≠ n → isPayrollSender edges id)) := by
  constructor
  · intro id
    rw [filterFalsePositives_find]
    rcases mapFind (bySenderAmounts edges) id with _ | am
    · rfl
    · simp only []
      rcases mapFind nodes id with _ | n <;> rfl
  · intro id n n' hn hn'
    rw [filterFalsePositives_find] at hn'
    rcases hba : mapFind (bySenderAmounts edges) id with _ | am
    · rw [hba] at hn'
      simp only [] at hn'
      rw [hn] at hn'
      have : n' = n := (Option.some.inj hn').symm
      subst this
      exact ⟨⟨rfl, rfl, rfl, rfl, rfl, rfl, rfl⟩, Or.inl rfl, fun hne => absurd rfl hne⟩
    · rw [hba] at hn'
      simp only [] at hn'
      rw [hn] at hn'
      have hval : n' = filterOne am n := (Option.some.inj hn').symm
      subst hval
      obtain ⟨hframe, hpat, hch⟩ := filterOne_frame am n
      refine ⟨hframe, hpat, fun hne => ?_⟩
      unfold isPayrollSender
      rw [hba]
      exact hch hne

/-- Witness for C10: instantiating the frame property at a concrete
one-node table and empty edge list, discharging both lookup hypotheses on
concrete data. -/
theorem c10_filter_frame_witness :
    ((emptyNode "A").id = (emptyNode "A").id ∧
     (emptyNode "A").totalTransactions = (emptyNode "A").totalTransactions ∧
     (emptyNode "A").totalSent = (emptyNode "A").totalSent ∧
     (emptyNode "A").totalReceived = (emptyNode "A").totalReceived ∧
     (emptyNode "A").uniqueSenders = (emptyNode "A").uniqueSenders ∧
     (emptyNode "A").uniqueReceivers = (emptyNode "A").uniqueReceivers ∧
     (emptyNode "A").ringId = (emptyNode "A").ringId) ∧
    ((emptyNode "A").detectedPatterns = (emptyNode "A").detectedPatterns ∨
     (emptyNode "A").detectedPatterns =
       (emptyNode "A").detectedPatterns.filter (fun p => p ≠ tagFanOut)) ∧
    (emptyNode "A" ≠ emptyNode "A" → isPayrollSender [] "A") :=
  (c10_filter_frame [("A", emptyNode "A")] []).2 "A" (emptyNode "A")
    (emptyNode "A") (by decide) (by decide)

theorem mem_setAdd {s : List String} {x y : String} (h : y ∈ setAdd s x) :
    y ∈ s ∨ y = x := by
  unfold setAdd at h
  by_cases hc : s.contains x = true
  · rw [if_pos hc] at h
    exact Or.inl h
  · rw [if_neg hc] at h
    rcases List.mem_append.mp h with hl | hr
    · exact Or.inl hl
    · exact Or.inr (List.mem_singleton.mp hr)

theorem mem_fold_setAdd (l : List String) :
    ∀ (s : List String) (y : String), y ∈ l.foldl setAdd s → y ∈ s ∨ y ∈ l := by
  induction l with
  | nil => intro s y h; exact Or.inl h
  | cons a rest ih =>
    intro s y h
    rcases ih _ y h with h1 | h1
    · rcases mem_setAdd h1 with h2 | h2
      · exact Or.inl h2
      · exact Or.inr (h2 ▸ List.mem_cons_self a rest)
    · exact Or.inr (List.mem_cons_of_mem a h1)

/-- Generic fold lemma: if every step can only add elements with property
`Q b`, membership in the result comes from the start or from one step. -/
theorem mem_foldl_addOnly {α β : Type} (l : List β)
    (step : List α → β → List α) (Q : β → α → Prop)
    (hstep : ∀ a b y, y ∈ step a b → y ∈ a ∨ Q b y) :
    ∀ (a0 : List α) (y : α), y ∈ l.foldl step a0 → y ∈ a0 ∨ ∃ b ∈ l, Q b y := by
  induction l with
  | nil => intro a0 y h; exact Or.inl h
  | cons b rest ih =>
    intro a0 y h
    rcases ih _ y h with h1 | h1
    · rcases hstep a0 b y h1 with h2 | h2
      · exact Or.inl h2
      · exact Or.inr ⟨b, List.mem_cons_self b rest, h2⟩
    · obtain ⟨b', hb', hq⟩ := h1
      exact Or.inr ⟨b', List.mem_cons_of_mem b hb', hq⟩

theorem mem_groupPush {α : Type} {m : List (String × List α)} {k : String}
    {v : α} {kv : String × List α} (h : kv ∈ groupPush m k v) :
    kv ∈ m ∨ kv.1 = k := by
  unfold groupPush at h
  rcases hf : mapFind m k with _ | l
  · rw [hf] at h
    rcases List.mem_append.mp h with hl | hr
    · exact Or.inl hl
    · rw [List.mem_singleton.mp hr]
      exact Or.inr rfl
  · rw [hf] at h
    rcases mem_mapSet h with hl | hr
    · exact Or.inl hl
    · rw [hr]
      exact Or.inr rfl

/-- Any account flagged by the velocity detector is the source of at least
one edge. -/
theorem detectHighVelocity_source (edges : List GraphEdge) (acc : String)
    (h : acc ∈ detectHighVelocity edges) : ∃ e ∈ edges, e.source = acc := by
  unfold detectHighVelocity at h
  have h1 := mem_foldl_addOnly _ _ (fun kv y => kv.1 = y) ?_ [] acc h
  · rcases h1 with h2 | h2
    · cases h2
    · obtain ⟨kv, hkv, hk⟩ := h2
      have h3 := mem_foldl_addOnly edges
        (fun m e => groupPush m e.source e.timestamp) (fun e kv => kv.1 = e.source)
        ?_ [] kv hkv
      · rcases h3 with h4 | h4
        · cases h4
        · obtain ⟨e, he, hsrc⟩ := h4
          exact ⟨e, he, by rw [← hsrc, hk]⟩
      · intro m e kv' hkv'
        rcases mem_groupPush hkv' with hl | hr
        · exact Or.inl hl
        · exact Or.inr hr
  · intro a kv y hy
    by_cases hc : velGo (List.insertionSort (fun a b : ℤ => a ≤ b) kv.2) 0
        (List.insertionSort (fun a b : ℤ => a ≤ b) kv.2).length = true
    · rw [if_pos hc] at hy
      rcases mem_setAdd hy with hl | hr
      · exact Or.inl hl
      · exact Or.inr hr.symm
    · rw [if_neg hc] at hy
      exact Or.inl hy

/-- The edge representing one transaction. -/
def edgeOfTx (tx : Transaction) : GraphEdge :=
  { source := tx.sender_id, target := tx.receiver_id, amount := tx.amount,
    timestamp := tx.timestampMs, transactionId := tx.transaction_id }

theorem buildStep_edges (st : NodeMap × List GraphEdge × AdjMap × AdjMap)
    (tx : Transaction) : (buildStep st tx).2.1 = st.2.1 ++ [edgeOfTx tx] := by
  obtain ⟨n, e, a, r⟩ := st
  rfl

theorem buildGraph_edges_aux (transactions : List Transaction) :
    ∀ st, (transactions.foldl buildStep st).2.1 =
      st.2.1 ++ transactions.map edgeOfTx := by
  induction transactions with
  | nil => intro st; simp
  | cons tx rest ih =>
    intro st
    simp only [List.foldl_cons, List.map_cons]
    rw [ih, buildStep_edges]
    simp

theorem buildGraph_edges (transactions : List Transaction) :
    (buildGraph transactions).edges = transactions.map edgeOfTx := by
  unfold buildGraph
  have h := buildGraph_edges_aux transactions ([], [], [], [])
  rcases hfold : transactions.foldl buildStep ([], [], [], []) with ⟨n, e, a, r⟩
  rw [hfold] at h
  simpa using h

theorem mapFind_append {α : Type} (m l : List (String × α)) (k : String) :
    mapFind (m ++ l) k =
      match mapFind m k with
      | some v => some v
      | none => mapFind l k := by
  induction m with
  | nil => simp [mapFind_nil]
  | cons p rest ih =>
    rw [List.cons_append, mapFind_cons, mapFind_cons]
    by_cases hpk : (p.1 == k) = true
    · rw [if_pos hpk, if_pos hpk]
    · rw [if_neg hpk, if_neg hpk, ih]

theorem ensureNode_isSome (m : NodeMap) (id k : String)
    (h : (mapFind m k).isSome = true) :
    (mapFind (ensureNode m id) k).isSome = true := by
  unfold ensureNode
  by_cases hs : (mapFind m id).isSome = true
  · rw [if_pos hs]; exact h
  · rw [if_neg hs, mapFind_append]
    rcases hf : mapFind m k with _ | v
    · rw [hf] at h; cases h
    · rfl

theorem ensureNode_self_isSome (m : NodeMap) (id : String) :
    (mapFind (ensureNode m id) id).isSome = true := by
  unfold ensureNode
  by_cases hs : (mapFind m id).isSome = true
  · rw [if_pos hs]; exact hs
  · rw [if_neg hs, mapFind_append]
    rcases hf : mapFind m id with _ | v
    · simp only []
      rw [mapFind_cons, if_pos (by simp)]
      rfl
    · exact absurd (by rw [hf]; rfl) hs

theorem mapSet_isSome {α : Type} (m : List (String × α)) (k : String) (v : α)
    (k' : String) (h : (mapFind m k').isSome = true) :
    (mapFind (mapSet m k v) k').isSome = true := by
  rw [mapFind_mapSet]
  by_cases hk : k' = k
  · rw [if_pos hk]; rfl
  · rw [if_neg hk]; exact h

theorem buildStep_isSome (st : NodeMap × List GraphEdge × AdjMap × AdjMap)
    (tx : Transaction) (k : String) (h : (mapFind st.1 k).isSome = true) :
    (mapFind (buildStep st tx).1 k).isSome = true := by
  obtain ⟨n, e, a, r⟩ := st
  have h1 : (mapFind (ensureNode (ensureNode n tx.sender_id) tx.receiver_id) k).isSome
      = true :=
    ensureNode_isSome _ tx.receiver_id k (ensureNode_isSome _ tx.sender_id k h)
  simp only [buildStep]
  rcases hf1 : mapFind (ensureNode (ensureNode n tx.sender_id) tx.receiver_id)
      tx.sender_id with _ | s
  · simp only []
    rcases hf2 : mapFind (ensureNode (ensureNode n tx.sender_id) tx.receiver_id)
        tx.receiver_id with _ | rr
    · simp only []
      exact h1
    · simp only []
      exact mapSet_isSome _ _ _ _ h1
  · simp only []
    have h2 := mapSet_isSome _ tx.sender_id
      { s with totalTransactions := s.totalTransactions + 1,
               totalSent := s.totalSent + tx.amount,
               uniqueReceivers := setAdd s.uniqueReceivers tx.receiver_id } k h1
    rcases hf2 : mapFind (mapSet (ensureNode (ensureNode n tx.sender_id) tx.receiver_id)
        tx.sender_id
        { s with totalTransactions := s.totalTransactions + 1,
                 totalSent := s.totalSent + tx.amount,
                 uniqueReceivers := setAdd s.uniqueReceivers tx.receiver_id })
        tx.receiver_id with _ | rr
    · simp only []
      exact h2
    · simp only []
      exact mapSet_isSome _ _ _ _ h2

theorem buildStep_sender_isSome (st : NodeMap × List GraphEdge × AdjMap × AdjMap)
    (tx : Transaction) :
    (mapFind (buildStep st tx).1 tx.sender_id).isSome = true := by
  obtain ⟨n, e, a, r⟩ := st
  have h1 : (mapFind (ensureNode (ensureNode n tx.sender_id) tx.receiver_id)
      tx.sender_id).isSome = true :=
    ensureNode_isSome _ tx.receiver_id _ (ensureNode_self_isSome n tx.sender_id)
  simp only [buildStep]
  rcases hf1 : mapFind (ensureNode (ensureNode n tx.sender_id) tx.receiver_id)
      tx.sender_id with _ | s
  · simp only []
    rcases hf2 : mapFind (ensureNode (ensureNode n tx.sender_id) tx.receiver_id)
        tx.receiver_id with _ | rr
    · simp only []
      exact h1
    · simp only []
      exact mapSet_isSome _ _ _ _ h1
  · simp only []
    have h2 := mapSet_isSome _ tx.sender_id
      { s with totalTransactions := s.totalTransactions + 1,
               totalSent := s.totalSent + tx.amount,
               uniqueReceivers := setAdd s.uniqueReceivers tx.receiver_id }
      tx.sender_id h1
    rcases hf2 : mapFind (mapSet (ensureNode (ensureNode n tx.sender_id) tx.receiver_id)
        tx.sender_id
        { s with totalTransactions := s.totalTransactions + 1,
                 totalSent := s.totalSent + tx.amount,
                 uniqueReceivers := setAdd s.uniqueReceivers tx.receiver_id })
        tx.receiver_id with _ | rr
    · simp only []
      exact h2
    · simp only []
      exact mapSet_isSome _ _ _ _ h2

theorem foldl_buildStep_isSome (transactions : List Transaction) :
    ∀ st (k : String), (mapFind st.1 k).isSome = true →
      (mapFind (transactions.foldl buildStep st).1 k).isSome = true := by
  induction transactions with
  | nil => intro st k h; exact h
  | cons tx rest ih =>
    intro st k h
    exact ih _ k (buildStep_isSome st tx k h)

theorem buildGraph_sender_isSome (transactions : List Transaction)
    (tx : Transaction) (htx : tx ∈ transactions) :
    (mapFind (buildGraph transactions).nodes tx.sender_id).isSome = true := by
  unfold buildGraph
  have hgen : ∀ (txs : List Transaction) st, tx ∈ txs →
      (mapFind (txs.foldl buildStep st).1 tx.sender_id).isSome = true := by
    intro txs
    induction txs with
    | nil => intro st h; cases h
    | cons t rest ih =>
      intro st h
      rcases List.mem_cons.mp h with rfl | hrest
      · exact foldl_buildStep_isSome rest _ _ (buildStep_sender_isSome st tx)
      · exact ih _ hrest
  have h := hgen transactions ([], [], [], []) htx
  rcases hfold : transactions.foldl buildStep ([], [], [], []) with ⟨n, e, a, r⟩
  rw [hfold] at h
  exact h

/-- Nodes created by the graph builder carry their own key as `id` and no
ring id. -/
def allBase (m : NodeMap) : Prop :=
  ∀ kv ∈ m, kv.2.id = kv.1 ∧ kv.2.ringId = none

theorem allBase_ensureNode (m : NodeMap) (id : String) (h : allBase m) :
    allBase (ensureNode m id) := by
  intro kv hkv
  unfold ensureNode at hkv
  by_cases hs : (mapFind m id).isSome = true
  · rw [if_pos hs] at hkv
    exact h kv hkv
  · rw [if_neg hs] at hkv
    rcases List.mem_append.mp hkv with hl | hr
    · exact h kv hl
    · rw [List.mem_singleton.mp hr]
      exact ⟨rfl, rfl⟩

theorem allBase_mapSet {m : NodeMap} {k : String} {v : GraphNode}
    (h : allBase m) (hv : v.id = k ∧ v.ringId = none) : allBase (mapSet m k v) := by
  intro kv hkv
  rcases mem_mapSet hkv with hl | hr
  · exact h kv hl
  · rw [hr]
    exact hv

theorem allBase_buildStep (st : NodeMap × List GraphEdge × AdjMap × AdjMap)
    (tx : Transaction) (h : allBase st.1) : allBase (buildStep st tx).1 := by
  obtain ⟨n, e, a, r⟩ := st
  have h1 : allBase (ensureNode (ensureNode n tx.sender_id) tx.receiver_id) :=
    allBase_ensureNode _ tx.receiver_id (allBase_ensureNode _ tx.sender_id h)
  simp only [buildStep]
  rcases hf1 : mapFind (ensureNode (ensureNode n tx.sender_id) tx.receiver_id)
      tx.sender_id with _ | s
  · simp only []
    rcases hf2 : mapFind (ensureNode (ensureNode n tx.sender_id) tx.receiver_id)
        tx.receiver_id with _ | rr
    · simp only []
      exact h1
    · simp only []
      have hb := h1 _ (mapFind_some_mem hf2)
      exact allBase_mapSet h1 ⟨hb.1, hb.2⟩
  · simp only []
    have hbs := h1 _ (mapFind_some_mem hf1)
    have h2 : allBase (mapSet (ensureNode (ensureNode n tx.sender_id) tx.receiver_id)
        tx.sender_id
        { s with totalTransactions := s.totalTransactions + 1,
                 totalSent := s.totalSent + tx.amount,
                 uniqueReceivers := setAdd s.uniqueReceivers tx.receiver_id }) :=
      allBase_mapSet h1 ⟨hbs.1, hbs.2⟩
    rcases hf2 : mapFind (mapSet (ensureNode (ensureNode n tx.sender_id) tx.receiver_id)
        tx.sender_id
        { s with totalTransactions := s.totalTransactions + 1,
                 totalSent := s.totalSent + tx.amount,
                 uniqueReceivers := setAdd s.uniqueReceivers tx.receiver_id })
        tx.receiver_id with _ | rr
    · simp only []
      exact h2
    · simp only []
      have hbr := h2 _ (mapFind_some_mem hf2)
      exact allBase_mapSet h2 ⟨hbr.1, hbr.2⟩

theorem buildGraph_allBase (transactions : List Transaction) :
    allBase (buildGraph transactions).nodes := by
  unfold buildGraph
  have hgen : ∀ (txs : List Transaction) st, allBase st.1 →
      allBase (txs.foldl buildStep st).1 := by
    intro txs
    induction txs with
    | nil => intro st h; exact h
    | cons t rest ih =>
      intro st h
      exact ih _ (allBase_buildStep st t h)
  have h := hgen transactions ([], [], [], []) (by intro kv hkv; cases hkv)
  rcases hfold : transactions.foldl buildStep ([], [], [], []) with ⟨n, e, a, r⟩
  rw [hfold] at h
  exact h

theorem mapFind_scoreAccounts (nodes : NodeMap)
    (cycleNodes : List (String × CycleInfo)) (fi fo sh hv : List String)
    (k : String) :
    mapFind (scoreAccounts nodes cycleNodes fi fo sh hv) k =
      (mapFind nodes k).map (scoreOne cycleNodes fi fo sh hv k) := by
  unfold scoreAccounts
  induction nodes with
  | nil => rfl
  | cons p rest ih =>
    rw [List.map_cons, mapFind_cons, mapFind_cons]
    by_cases hpk : (p.1 == k) = true
    · rw [if_pos hpk, if_pos hpk]
      rw [eq_of_beq hpk]
      rfl
    · rw [if_neg hpk, if_neg hpk]
      exact ih

/-- A fold whose steps leave the lookup of a key unchanged leaves it
unchanged overall. -/
theorem mapFind_foldl_untouched {α β : Type} (l : List β)
    (step : List (String × α) → β → List (String × α)) (k : String) :
    ∀ m0, (∀ m b, b ∈ l → mapFind (step m b) k = mapFind m k) →
      mapFind (l.foldl step m0) k = mapFind m0 k := by
  induction l with
  | nil => intro m0 _; rfl
  | cons b rest ih =>
    intro m0 hstep
    simp only [List.foldl_cons]
    rw [ih _ (fun m b' hb' => hstep m b' (List.mem_cons_of_mem b hb')),
      hstep m0 b (List.mem_cons_self b rest)]

theorem buildCycleNodes_find_none (cycles : List (List String)) (acc : String)
    (h : ∀ c ∈ cycles, acc ∉ c) :
    mapFind (buildCycleNodes cycles) acc = none := by
  unfold buildCycleNodes
  rw [mapFind_foldl_untouched _ _ acc [] ?_]
  · rfl
  · intro m cycle hcyc
    rw [mapFind_foldl_untouched _ _ acc m ?_]
    intro m' a ha
    have hne : acc ≠ a := fun hh => h cycle hcyc (hh ▸ ha)
    rcases hmf : mapFind m' a with _ | old
    · simp only []
      rw [mapFind_mapSet, if_neg hne]
    · simp only []
      by_cases hlt : cycle.length < old.length
      · rw [if_pos hlt, mapFind_mapSet, if_neg hne]
      · rw [if_neg hlt]

/-- A node whose pattern list does not contain the fan-out tag is untouched
by the per-sender filter body. -/
theorem filterOne_no_fanout (am : List ℤ) (n : GraphNode)
    (h : n.detectedPatterns.contains tagFanOut = false) : filterOne am n = n := by
  unfold filterOne
  by_cases hpay : 10 ≤ am.length ∧ payrollCv am = true
  · rw [if_pos hpay, if_pos (Or.inl (by rw [h]; exact Bool.false_ne_true))]
  · rw [if_neg hpay]

theorem mkCycleRings_eq (rings : List FraudRing) (nodes : NodeMap)
    (g : String × List String) :
    mkCycleRings (rings, nodes) g =
      (rings ++
        [{ ring_id := g.1, member_accounts := g.2, pattern_type := cycleWord,
           riskScoreTenths := riskScoreTenths nodes g.2 }],
       g.2.foldl
        (fun ns acc =>
          match mapFind ns acc with
          | some n => mapSet ns acc { n with ringId := some g.1 }
          | none => ns)
        nodes) := rfl

/-- Members of the cycle groups all come from the processed cycles. -/
theorem groupsSub_update (cycles : List (List String)) (cycle : List String)
    (hcyc : cycle ∈ cycles) (groups1 : List (String × List String)) (rid : String)
    (h1 : ∀ g ∈ groups1, ∀ x ∈ g.2, ∃ c ∈ cycles, x ∈ c) :
    ∀ g ∈ mapSet groups1 rid (cycle.foldl setAdd ((mapFind groups1 rid).getD [])),
      ∀ x ∈ g.2, ∃ c ∈ cycles, x ∈ c := by
  intro g hg x hx
  rcases mem_mapSet hg with hl | hr
  · exact h1 g hl x hx
  · rw [hr] at hx
    rcases mem_fold_setAdd cycle _ x hx with hb | hc
    · rcases hmf : mapFind groups1 rid with _ | g0
      · rw [hmf] at hb
        cases hb
      · rw [hmf] at hb
        exact h1 (rid, g0) (mapFind_some_mem hmf) x hb
    · exact ⟨cycle, hcyc, hc⟩

theorem cycleRingStep_groupsSub (cycles : List (List String))
    (cycle : List String) (hcyc : cycle ∈ cycles) (st : RingSt)
    (h : ∀ g ∈ st.groups, ∀ x ∈ g.2, ∃ c ∈ cycles, x ∈ c) :
    ∀ g ∈ (cycleRingStep st cycle).groups, ∀ x ∈ g.2, ∃ c ∈ cycles, x ∈ c := by
  unfold cycleRingStep
  rcases hfs : cycle.findSome? (fun acc => mapFind st.ringIdMap acc) with _ | rid
  · simp only []
    refine groupsSub_update cycles cycle hcyc _ _ ?_
    intro g hg x hx
    rcases List.mem_append.mp hg with hl | hr
    · exact h g hl x hx
    · rw [List.mem_singleton.mp hr] at hx
      cases hx
  · simp only []
    exact groupsSub_update cycles cycle hcyc _ _ h

theorem ringSt_groupsSub (cycles : List (List String)) :
    ∀ (l : List (List String)), (∀ c ∈ l, c ∈ cycles) →
      ∀ st : RingSt, (∀ g ∈ st.groups, ∀ x ∈ g.2, ∃ c ∈ cycles, x ∈ c) →
      ∀ g ∈ (l.foldl cycleRingStep st).groups, ∀ x ∈ g.2, ∃ c ∈ cycles, x ∈ c := by
  intro l
  induction l with
  | nil => intro _ st h; exact h
  | cons cy rest ih =>
    intro hsub st h
    simp only [List.foldl_cons]
    exact ih (fun c hc => hsub c (List.mem_cons_of_mem cy hc)) _
      (cycleRingStep_groupsSub cycles cy (hsub cy (List.mem_cons_self cy rest)) st h)

theorem mkCycleRings_fold_rings (groups : List (String × List String)) :
    ∀ (r0 : List FraudRing) (nodes : NodeMap) (ring : FraudRing),
      ring ∈ (groups.foldl mkCycleRings (r0, nodes)).1 →
      ring ∈ r0 ∨ ∃ g ∈ groups, ring.member_accounts = g.2 ∧
        ring.pattern_type = cycleWord := by
  induction groups with
  | nil => intro r0 nodes ring h; exact Or.inl h
  | cons g rest ih =>
    intro r0 nodes ring h
    simp only [List.foldl_cons, mkCycleRings_eq] at h
    rcases ih _ _ ring h with h1 | h1
    · rcases List.mem_append.mp h1 with hl | hr
      · exact Or.inl hl
      · rw [List.mem_singleton.mp hr]
        exact Or.inr ⟨g, List.mem_cons_self g rest, rfl, rfl⟩
    · obtain ⟨g', hg', hm⟩ := h1
      exact Or.inr ⟨g', List.mem_cons_of_mem g hg', hm⟩

theorem patternRing_rings (ptype : String) (arr : List String) (c : Nat)
    (r : List FraudRing) (n : NodeMap) (ring : FraudRing)
    (h : ring ∈ (patternRing ptype arr (c, r, n)).2.1) :
    ring ∈ r ∨ (ring.member_accounts = arr ∧ ring.pattern_type = ptype) := by
  unfold patternRing at h
  simp only [] at h
  by_cases hlen : arr.length = 0
  · rw [if_pos hlen] at h
    exact Or.inl h
  · rw [if_neg hlen] at h
    rcases List.mem_append.mp h with hl | hr
    · exact Or.inl hl
    · rw [List.mem_singleton.mp hr]
      exact Or.inr ⟨rfl, rfl⟩

/-- Every member of every assembled ring came from a detected cycle or one
of the three detector candidate sets. -/
theorem assembleFraudRings_members (cycles : List (List String))
    (fi fo sh : List String) (nodes : NodeMap) :
    ∀ ring ∈ (assembleFraudRings cycles fi fo sh nodes).1,
      ∀ x ∈ ring.member_accounts,
        (∃ c ∈ cycles, x ∈ c) ∨ x ∈ fi ∨ x ∈ fo ∨ x ∈ sh := by
  intro ring hring x hx
  unfold assembleFraudRings at hring
  simp only [] at hring
  rcases patternRing_rings _ _ _ _ _ ring hring with h3 | h3
  · rcases patternRing_rings _ _ _ _ _ ring h3 with h2 | h2
    · rcases patternRing_rings _ _ _ _ _ ring h2 with h1 | h1
      · rcases mkCycleRings_fold_rings _ _ _ ring h1 with h0 | h0
        · cases h0
        · obtain ⟨g, hg, hm, _⟩ := h0
          have hsub := ringSt_groupsSub cycles cycles (fun c hc => hc)
            { counter := 0, groups := [], ringIdMap := [] }
            (by intro g hg; cases hg) g hg
          rw [hm] at hx
          exact Or.inl (hsub x hx)
      · rw [h1.1] at hx
        exact Or.inr (Or.inl (List.mem_of_mem_filter hx))
    · rw [h2.1] at hx
      exact Or.inr (Or.inr (Or.inl (List.mem_of_mem_filter hx)))
  · rw [h3.1] at hx
    exact Or.inr (Or.inr (Or.inr (List.mem_of_mem_filter hx)))

theorem ringUpdate_fold_untouched (members : List String) (rid : String)
    (nodes : NodeMap) (acc : String) (h : acc ∉ members) :
    mapFind (members.foldl
      (fun ns a =>
        match mapFind ns a with
        | some n => mapSet ns a { n with ringId := some rid }
        | none => ns)
      nodes) acc = mapFind nodes acc := by
  refine mapFind_foldl_untouched members _ acc nodes ?_
  intro m a ha
  have hne : acc ≠ a := fun hh => h (hh ▸ ha)
  rcases hmf : mapFind m a with _ | n
  · rfl
  · simp only []
    rw [mapFind_mapSet, if_neg hne]

theorem ringUpdateFalsy_fold_untouched (members : List String) (rid : String)
    (nodes : NodeMap) (acc : String) (h : acc ∉ members) :
    mapFind (members.foldl
      (fun ns a =>
        match mapFind ns a with
        | some n =>
          if ringIdFalsy n.ringId then mapSet ns a { n with ringId := some rid }
          else ns
        | none => ns)
      nodes) acc = mapFind nodes acc := by
  refine mapFind_foldl_untouched members _ acc nodes ?_
  intro m a ha
  have hne : acc ≠ a := fun hh => h (hh ▸ ha)
  rcases hmf : mapFind m a with _ | n
  · rfl
  · simp only []
    by_cases hfal : ringIdFalsy n.ringId = true
    · rw [if_pos hfal, mapFind_mapSet, if_neg hne]
    · rw [if_neg hfal]

theorem mkCycleRings_fold_nodes_untouched (groups : List (String × List String))
    (acc : String) :
    ∀ (r0 : List FraudRing) (nodes : NodeMap),
      (∀ g ∈ groups, acc ∉ g.2) →
      mapFind (groups.foldl mkCycleRings (r0, nodes)).2 acc = mapFind nodes acc := by
  induction groups with
  | nil => intro r0 nodes _; rfl
  | cons g rest ih =>
    intro r0 nodes hna
    simp only [List.foldl_cons, mkCycleRings_eq]
    rw [ih _ _ (fun g' hg' => hna g' (List.mem_cons_of_mem g hg'))]
    exact ringUpdate_fold_untouched g.2 g.1 nodes acc
      (hna g (List.mem_cons_self g rest))

theorem patternRing_nodes_untouched (ptype : String) (arr : List String)
    (c : Nat) (r : List FraudRing) (n : NodeMap) (acc : String)
    (h : acc ∉ arr) :
    mapFind (patternRing ptype arr (c, r, n)).2.2 acc = mapFind n acc := by
  unfold patternRing
  simp only []
  by_cases hlen : arr.length = 0
  · rw [if_pos hlen]
  · rw [if_neg hlen]
    exact ringUpdateFalsy_fold_untouched arr _ n acc h

/-- A node in no detected cycle and in none of the candidate sets keeps its
table entry through ring assembly. -/
theorem assembleFraudRings_nodes_untouched (cycles : List (List String))
    (fi fo sh : List String) (nodes : NodeMap) (acc : String)
    (hc : ∀ c ∈ cycles, acc ∉ c) (hfi : acc ∉ fi) (hfo : acc ∉ fo)
    (hsh : acc ∉ sh) :
    mapFind (assembleFraudRings cycles fi fo sh nodes).2 acc = mapFind nodes acc := by
  unfold assembleFraudRings
  simp only []
  rw [patternRing_nodes_untouched _ _ _ _ _ acc
      (fun hmem => hsh (List.mem_of_mem_filter hmem)),
    patternRing_nodes_untouched _ _ _ _ _ acc
      (fun hmem => hfo (List.mem_of_mem_filter hmem)),
    patternRing_nodes_untouched _ _ _ _ _ acc
      (fun hmem => hfi (List.mem_of_mem_filter hmem))]
  refine mkCycleRings_fold_nodes_untouched _ acc _ _ ?_
  intro g hg hmem
  have hsub := ringSt_groupsSub cycles cycles (fun c hcm => hcm)
    { counter := 0, groups := [], ringIdMap := [] }
    (by intro g' hg'; cases hg') g hg
  obtain ⟨c, hcm, hxc⟩ := hsub _ hmem
  exact hc c hcm hxc

theorem scoreOne_velocity_only (cycleNodes : List (String × CycleInfo))
    (fi fo sh hv : List String) (acc : String) (n : GraphNode)
    (hcy : mapFind cycleNodes acc = none) (h1 : fi.contains acc = false)
    (h2 : fo.contains acc = false) (h3 : sh.contains acc = false)
    (h4 : hv.contains acc = true) :
    scoreOne cycleNodes fi fo sh hv acc n =
      { n with suspicionScore := 10, detectedPatterns := [tagVelocity],
               isSuspicious := true } := by
  simp only [scoreOne, hcy, h1, h2, h3, h4, Bool.false_eq_true, if_true, if_false,
    ite_true, ite_false, Bool.true_eq_false]
  rfl

/-- Claim C9 (amended): an account flagged by the velocity detector but by
no other detector — not fan-in, not fan-out, not shell, and in no detected
cycle — is reported with score 10, the single tag `high_velocity` and no
ring id, and is a member of no fraud ring.  (The counterexample shows the
original emission-time phrasing fails: an account whose `fan_out` tag was
removed by the payroll filter also shows only `high_velocity` at emission
yet sits in the fan-out ring.) -/
theorem c9_velocity_only_detector_amended (transactions : List Transaction)
    (acc : String) (t1 t2 : ℤ)
    (hvel : acc ∈ detectHighVelocity (pipelineGraph transactions).edges)
    (hfi : acc ∉ (detectSmurfing (pipelineGraph transactions).edges).fanInAccounts)
    (hfo : acc ∉ (detectSmurfing (pipelineGraph transactions).edges).fanOutAccounts)
    (hsh : acc ∉ detectShellChains (pipelineGraph transactions).nodes
      (pipelineGraph transactions).adjacency)
    (hcy : ∀ c ∈ pipelineCycles transactions, acc ∉ c) :
    (∃ entry ∈ (analyzeTransactions transactions t1 t2).suspicious_accounts,
      entry = { account_id := acc, suspicion_score := 10,
                detected_patterns := [tagVelocity], ring_id := none }) ∧
    (∀ ring ∈ (analyzeTransactions transactions t1 t2).fraud_rings,
      acc ∉ ring.member_accounts) := by
  obtain ⟨e, he, hesrc⟩ :=
    detectHighVelocity_source (pipelineGraph transactions).edges acc hvel
  have hedges : (pipelineGraph transactions).edges = transactions.map edgeOfTx :=
    buildGraph_edges transactions
  rw [hedges] at he
  obtain ⟨tx, htx, rfl⟩ := List.mem_map.mp he
  have hacc : tx.sender_id = acc := hesrc
  have hsome : (mapFind (pipelineGraph transactions).nodes acc).isSome = true := by
    rw [← hacc]
    exact buildGraph_sender_isSome transactions tx htx
  obtain ⟨n, hn⟩ := Option.isSome_iff_exists.mp hsome
  have hbase := buildGraph_allBase transactions (acc, n) (mapFind_some_mem hn)
  have hfiB : (detectSmurfing (pipelineGraph transactions).edges).fanInAccounts.contains
      acc = false := by
    rcases Bool.eq_false_or_eq_true
        ((detectSmurfing (pipelineGraph transactions).edges).fanInAccounts.contains acc)
      with h | h
    · exact absurd (List.elem_iff.mp h) hfi
    · exact h
  have hfoB : (detectSmurfing (pipelineGraph transactions).edges).fanOutAccounts.contains
      acc = false := by
    rcases Bool.eq_false_or_eq_true
        ((detectSmurfing (pipelineGraph transactions).edges).fanOutAccounts.contains acc)
      with h | h
    · exact absurd (List.elem_iff.mp h) hfo
    · exact h
  have hshB : (detectShellChains (pipelineGraph transactions).nodes
      (pipelineGraph transactions).adjacency).contains acc = false := by
    rcases Bool.eq_false_or_eq_true ((detectShellChains (pipelineGraph transactions).nodes
        (pipelineGraph transactions).adjacency).contains acc) with h | h
    · exact absurd (List.elem_iff.mp h) hsh
    · exact h
  have hvelB : (detectHighVelocity (pipelineGraph transactions).edges).contains acc = true :=
    List.elem_iff.mpr hvel
  have hcyN : mapFind (buildCycleNodes (pipelineCycles transactions)) acc = none :=
    buildCycleNodes_find_none _ _ hcy
  have h1 : mapFind (nodesAfterScoring transactions) acc =
      some { n with suspicionScore := 10, detectedPatterns := [tagVelocity],
                    isSuspicious := true } := by
    unfold nodesAfterScoring
    rw [mapFind_scoreAccounts, hn]
    exact congrArg some (scoreOne_velocity_only _ _ _ _ _ acc n hcyN hfiB hfoB hshB hvelB)
  have h2 : mapFind (nodesAfterFilter transactions) acc =
      some { n with suspicionScore := 10, detectedPatterns := [tagVelocity],
                    isSuspicious := true } := by
    unfold nodesAfterFilter
    rw [filterFalsePositives_find]
    rcases hba : mapFind (bySenderAmounts (pipelineGraph transactions).edges) acc
      with _ | am
    · exact h1
    · rw [h1]
      exact congrArg some (filterOne_no_fanout am _
        (show (([tagVelocity] : List String).contains tagFanOut) = false by decide))
  have h3 : mapFind (pipelineRings transactions).2 acc =
      some { n with suspicionScore := 10, detectedPatterns := [tagVelocity],
                    isSuspicious := true } := by
    unfold pipelineRings
    rw [assembleFraudRings_nodes_untouched _ _ _ _ _ acc hcy hfi hfo hsh]
    exact h2
  constructor
  · have hmem3 := mapFind_some_mem h3
    have hsa : (analyzeTransactions transactions t1 t2).suspicious_accounts =
        (List.insertionSort scoreDesc
          (((pipelineRings transactions).2.map (fun kv => kv.2)).filter
            (fun nd => nd.isSuspicious && decide (0 < nd.suspicionScore)))).map
          (fun nd => { account_id := nd.id, suspicion_score := nd.suspicionScore,
                       detected_patterns := nd.detectedPatterns,
                       ring_id := nd.ringId }) := rfl
    rw [hsa]
    have hmemS : ({ n with suspicionScore := 10, detectedPatterns := [tagVelocity],
                           isSuspicious := true } : GraphNode) ∈
        List.insertionSort scoreDesc
          (((pipelineRings transactions).2.map (fun kv => kv.2)).filter
            (fun nd => nd.isSuspicious && decide (0 < nd.suspicionScore))) := by
      rw [List.mem_insertionSort]
      refine List.mem_filter.mpr ⟨?_, ?_⟩
      · exact List.mem_map_of_mem (fun kv => kv.2) hmem3
      · rfl
    refine ⟨_, List.mem_map_of_mem _ hmemS, ?_⟩
    rw [SuspiciousAccount.mk.injEq]
    exact ⟨hbase.1, rfl, rfl, hbase.2⟩
  · intro ring hring hmem
    have hrings : (analyzeTransactions transactions t1 t2).fraud_rings =
        (assembleFraudRings (pipelineCycles transactions)
          (detectSmurfing (pipelineGraph transactions).edges).fanInAccounts
          (detectSmurfing (pipelineGraph transactions).edges).fanOutAccounts
          (detectShellChains (pipelineGraph transactions).nodes
            (pipelineGraph transactions).adjacency)
          (nodesAfterFilter transactions)).1 := rfl
    rw [hrings] at hring
    rcases assembleFraudRings_members _ _ _ _ _ ring hring acc hmem with h | h | h | h
    · obtain ⟨c, hcm, hxc⟩ := h
      exact hcy c hcm hxc
    · exact hfi h
    · exact hfo h
    · exact hsh h

/-- Concrete input for the C9 witness: 20 equal transactions from `S` to
the single receiver `r` within 20 minutes — velocity-flagged, but only one
distinct counterparty, so no other detector fires. -/
def velOnlyTxs : List Transaction :=
  (List.range 20).map (fun i => mkTx "S" "r" 7 (60000 * (i : ℤ)))

/-- Witness for the amended C9 at `velOnlyTxs`, discharging every detector
hypothesis by evaluation. -/
theorem c9_velocity_only_detector_amended_witness :
    (∃ entry ∈ (analyzeTransactions velOnlyTxs 0 0).suspicious_accounts,
      entry = { account_id := "S", suspicion_score := 10,
                detected_patterns := [tagVelocity], ring_id := none }) ∧
    (∀ ring ∈ (analyzeTransactions velOnlyTxs 0 0).fraud_rings,
      "S" ∉ ring.member_accounts) :=
  c9_velocity_only_detector_amended velOnlyTxs "S" 0 0 (by decide) (by decide)
    (by decide) (by decide) (by decide)

/-- Claim C8: the engine is deterministic up to the processing time — for a
fixed transaction sequence, any two invocations (arbitrary clock readings)
produce identical suspicious-account lists, identical fraud-ring lists, and
identical summary counts; only `processing_time_seconds` may differ. -/
theorem c8_deterministic_up_to_time (transactions : List Transaction)
    (s1 e1 s2 e2 : ℤ) :
    (analyzeTransactions transactions s1 e1).suspicious_accounts =
      (analyzeTransactions transactions s2 e2).suspicious_accounts ∧
    (analyzeTransactions transactions s1 e1).fraud_rings =
      (analyzeTransactions transactions s2 e2).fraud_rings ∧
    (analyzeTransactions transactions s1 e1).summary.total_accounts_analyzed =
      (analyzeTransactions transactions s2 e2).summary.total_accounts_analyzed ∧
    (analyzeTransactions transactions s1 e1).summary.suspicious_accounts_flagged =
      (analyzeTransactions transactions s2 e2).summary.suspicious_accounts_flagged ∧
    (analyzeTransactions transactions s1 e1).summary.fraud_rings_detected =
      (analyzeTransactions transactions s2 e2).summary.fraud_rings_detected ∧
    (analyzeTransactions transactions s1 e1).nodes =
      (analyzeTransactions transactions s2 e2).nodes ∧
    (analyzeTransactions transactions s1 e1).edges =
      (analyzeTransactions transactions s2 e2).edges := by
  exact ⟨rfl, rfl, rfl, rfl, rfl, rfl, rfl⟩

-- =============================================
-- Claim C6: the ring-id scheme
-- =============================================

/-- The documented ring-id shape `RING_` followed by exactly three decimal
digits (the regex `RING_` + `\\d{3}` anchored on both sides): eight
characters, the literal prefix, and digits in positions 5-7. -/
def ringIdFormatOk (s : String) : Bool :=
  s.length = 8 && jsStartsWith s ringPre && (s.data.drop 5).all (fun c => c.isDigit)

/-- A key that occurs in the key list of an association list is found. -/
theorem mapFind_isSome_of_key {α : Type} {m : List (String × α)} {k : String}
    (h : k ∈ m.map Prod.fst) : (mapFind m k).isSome = true := by
  obtain ⟨p, hp, hpk⟩ := List.mem_map.mp h
  rcases hf : mapFind m k with _ | v
  · have hb := mapFind_eq_none_iff.mp hf p hp
    rw [hpk] at hb
    simp at hb
  · rfl

/-- Setting an absent key appends it to the key list. -/
theorem mapSet_keys_absent {α : Type} (m : List (String × α)) (k : String)
    (v : α) (hnone : mapFind m k = none) :
    (mapSet m k v).map Prod.fst = m.map Prod.fst ++ [k] := by
  unfold mapSet
  have hany : m.any (fun p => p.1 == k) = false := by
    rw [List.any_eq_false]
    intro p hp
    have hb := mapFind_eq_none_iff.mp hnone p hp
    simp [hb]
  rw [if_neg (by simp [hany]), List.map_append]
  simp

/-- Writing a constant ring id for every member of a cycle leaves lookups of
non-members unchanged. -/
theorem mapFind_fold_mapSet_untouched (rid a : String) :
    ∀ (c : List String) (m : List (String × String)), a ∉ c →
      mapFind (c.foldl (fun mm acc => mapSet mm acc rid) m) a = mapFind m a := by
  intro c
  induction c with
  | nil => intro m _; rfl
  | cons x rest ih =>
    intro m hna
    simp only [List.foldl_cons]
    rw [ih _ (fun h => hna (List.mem_cons_of_mem x h)), mapFind_mapSet,
      if_neg (fun h => hna (List.mem_cons.mpr (Or.inl h)))]

/-- Values written by the per-cycle ring-id fold all lie in a key set that
contains the written id and the previously stored values. -/
theorem ringIdMap_fold_values (rid : String) (keys : List String)
    (hrid : rid ∈ keys) :
    ∀ (c : List String) (m : List (String × String)),
      (∀ p ∈ m, p.2 ∈ keys) →
      ∀ p ∈ c.foldl (fun mm acc => mapSet mm acc rid) m, p.2 ∈ keys := by
  intro c
  induction c with
  | nil => exact fun m hm => hm
  | cons x rest ih =>
    intro m hm
    simp only [List.foldl_cons]
    refine ih (mapSet m x rid) ?_
    intro p hp
    rcases mem_mapSet hp with h | h
    · exact hm p h
    · rw [h]; exact hrid

/-- Invariant of the cycle-merging state: the group keys are exactly
`RING_1 … RING_counter` in creation order, and every id stored in the
account-to-ring map is a group key. -/
def ringStInv (st : RingSt) : Prop :=
  st.groups.map Prod.fst
      = (List.range st.counter).map (fun i => ringIdStr (i + 1)) ∧
  ∀ p ∈ st.ringIdMap, p.2 ∈ st.groups.map Prod.fst

theorem cycleRingStep_inv (st : RingSt) (cycle : List String)
    (h : ringStInv st) : ringStInv (cycleRingStep st cycle) := by
  obtain ⟨hkeys, hval⟩ := h
  unfold cycleRingStep
  rcases hfs : cycle.findSome? (fun acc => mapFind st.ringIdMap acc) with _ | rid
  · simp only []
    have hsome : (mapFind (st.groups ++ [(ringIdStr (st.counter + 1), [])])
        (ringIdStr (st.counter + 1))).isSome = true := by
      rw [mapFind_append]
      rcases mapFind st.groups (ringIdStr (st.counter + 1)) with _ | w
      · simp [mapFind_cons]
      · rfl
    have hk2 : (mapSet (st.groups ++ [(ringIdStr (st.counter + 1), [])])
        (ringIdStr (st.counter + 1))
        (cycle.foldl setAdd
          ((mapFind (st.groups ++ [(ringIdStr (st.counter + 1), [])])
            (ringIdStr (st.counter + 1))).getD []))).map Prod.fst
        = st.groups.map Prod.fst ++ [ringIdStr (st.counter + 1)] := by
      rw [mapSet_keys _ _ _ hsome, List.map_append]
      rfl
    constructor
    · rw [hk2, hkeys, List.range_succ, List.map_append]
      simp
    · intro p hp
      rw [hk2]
      refine ringIdMap_fold_values _ _ ?_ cycle st.ringIdMap ?_ p hp
      · exact List.mem_append.mpr (Or.inr (List.mem_singleton.mpr rfl))
      · intro q hq
        exact List.mem_append.mpr (Or.inl (hval q hq))
  · simp only []
    obtain ⟨a, ha, hav⟩ := List.exists_of_findSome?_eq_some hfs
    have hridkey : rid ∈ st.groups.map Prod.fst :=
      hval (a, rid) (mapFind_some_mem hav)
    have hsome : (mapFind st.groups rid).isSome = true :=
      mapFind_isSome_of_key hridkey
    have hk2 : (mapSet st.groups rid
        (cycle.foldl setAdd ((mapFind st.groups rid).getD []))).map Prod.fst
        = st.groups.map Prod.fst := mapSet_keys _ _ _ hsome
    constructor
    · rw [hk2]; exact hkeys
    · intro p hp
      rw [hk2]
      exact ringIdMap_fold_values rid _ hridkey cycle st.ringIdMap hval p hp

theorem foldl_cycleRingStep_inv (L : List (List String)) :
    ∀ st : RingSt, ringStInv st → ringStInv (L.foldl cycleRingStep st) := by
  induction L with
  | nil => exact fun st h => h
  | cons c rest ih =>
    intro st h
    simp only [List.foldl_cons]
    exact ih _ (cycleRingStep_inv st c h)

/-- Over pairwise-disjoint cycles none of whose members are mapped yet, every
cycle opens a fresh ring: the counter advances by the number of cycles. -/
theorem foldl_cycleRingStep_counter_fresh (L : List (List String)) :
    ∀ st : RingSt,
      (∀ c ∈ L, ∀ a ∈ c, mapFind st.ringIdMap a = none) →
      L.Pairwise (fun c d => ∀ a ∈ c, a ∉ d) →
      (L.foldl cycleRingStep st).counter = st.counter + L.length := by
  induction L with
  | nil => intro st _ _; simp
  | cons cy rest ih =>
    intro st hfresh hpair
    simp only [List.foldl_cons]
    have hfs : cy.findSome? (fun acc => mapFind st.ringIdMap acc) = none :=
      List.findSome?_eq_none_iff.mpr
        (fun a ha => hfresh cy (List.mem_cons_self cy rest) a ha)
    have hstep : cycleRingStep st cy =
        { counter := st.counter + 1,
          groups := mapSet (st.groups ++ [(ringIdStr (st.counter + 1), [])])
            (ringIdStr (st.counter + 1))
            (cy.foldl setAdd
              ((mapFind (st.groups ++ [(ringIdStr (st.counter + 1), [])])
                (ringIdStr (st.counter + 1))).getD [])),
          ringIdMap := cy.foldl
            (fun m acc => mapSet m acc (ringIdStr (st.counter + 1)))
            st.ringIdMap } := by
      unfold cycleRingStep
      rw [hfs]
    have hfresh2 : ∀ c ∈ rest, ∀ a ∈ c,
        mapFind (cycleRingStep st cy).ringIdMap a = none := by
      intro c hc a ha
      have hna : a ∉ cy := by
        intro hin
        exact (List.pairwise_cons.mp hpair).1 c hc a hin ha
      rw [hstep]
      simp only []
      rw [mapFind_fold_mapSet_untouched _ _ _ _ hna]
      exact hfresh c (List.mem_cons_of_mem cy hc) a ha
    rw [ih _ hfresh2 (List.pairwise_cons.mp hpair).2, hstep]
    simp only [List.length_cons]
    omega

/-- The cycle-ring emission fold appends one ring per group, carrying the
group key as its id and the `cycle` pattern type, in group order. -/
theorem mkCycleRings_fold_ids (groups : List (String × List String)) :
    ∀ (r0 : List FraudRing) (nodes : NodeMap),
      ((groups.foldl mkCycleRings (r0, nodes)).1.map FraudRing.ring_id
          = r0.map FraudRing.ring_id ++ groups.map Prod.fst) ∧
      ((groups.foldl mkCycleRings (r0, nodes)).1.map FraudRing.pattern_type
          = r0.map FraudRing.pattern_type
            ++ List.replicate groups.length cycleWord) := by
  induction groups with
  | nil => intro r0 nodes; simp
  | cons g rest ih =>
    intro r0 nodes
    simp only [List.foldl_cons, mkCycleRings_eq]
    obtain ⟨h1, h2⟩ := ih _ _
    constructor
    · rw [h1, List.map_append, List.append_assoc]
      simp
    · rw [h2, List.map_append, List.append_assoc, List.length_cons,
        List.replicate_succ]
      simp

/-- Effect of one single-pattern ring stage on the counter, the ring-id
list, and the pattern-type list. -/
theorem patternRing_ids (t : String) (arr : List String) (c : Nat)
    (r : List FraudRing) (n : NodeMap) :
    ((patternRing t arr (c, r, n)).1 = if arr.length = 0 then c else c + 1) ∧
    ((patternRing t arr (c, r, n)).2.1.map FraudRing.ring_id
        = r.map FraudRing.ring_id
          ++ if arr.length = 0 then [] else [ringIdStr (c + 1)]) ∧
    ((patternRing t arr (c, r, n)).2.1.map FraudRing.pattern_type
        = r.map FraudRing.pattern_type ++ if arr.length = 0 then [] else [t]) := by
  unfold patternRing
  by_cases h : arr.length = 0
  · simp [h]
  · simp [h]

/-- A single-pattern stage preserves the contiguous-id invariant and appends
at most one ring of its pattern type. -/
theorem patternRing_scheme_step (t : String) (arr : List String)
    (st : Nat × List FraudRing × NodeMap) (ts : List String)
    (hid : st.2.1.map FraudRing.ring_id
      = (List.range st.1).map (fun i => ringIdStr (i + 1)))
    (hty : st.2.1.map FraudRing.pattern_type = ts) :
    ((patternRing t arr st).2.1.map FraudRing.ring_id
        = (List.range (patternRing t arr st).1).map (fun i => ringIdStr (i + 1))) ∧
    ∃ b ≤ 1, (patternRing t arr st).2.1.map FraudRing.pattern_type
        = ts ++ List.replicate b t := by
  obtain ⟨c, r, n⟩ := st
  simp only [] at hid hty
  obtain ⟨h1, h2, h3⟩ := patternRing_ids t arr c r n
  by_cases h : arr.length = 0
  · rw [if_pos h] at h1 h2 h3
    refine ⟨?_, 0, Nat.zero_le 1, ?_⟩
    · rw [h2, h1, hid]
      simp
    · rw [h3, hty]
      simp
  · rw [if_neg h] at h1 h2 h3
    refine ⟨?_, 1, le_refl 1, ?_⟩
    · rw [h2, h1, hid, List.range_succ, List.map_append]
      simp
    · rw [h3, hty]
      simp

/-- With no fan-in, fan-out, or shell candidates, the assembler reduces to
the cycle stages. -/
theorem assembleFraudRings_no_patterns (cycles : List (List String))
    (nodes : NodeMap) :
    assembleFraudRings cycles [] [] [] nodes =
      (cycles.foldl cycleRingStep
        { counter := 0, groups := [], ringIdMap := [] }).groups.foldl
        mkCycleRings ([], nodes) := rfl

/-- The assembler output spelled out stage by stage. -/
theorem assembleFraudRings_stages (cycles : List (List String))
    (fi fo sh : List String) (nodes : NodeMap) :
    (assembleFraudRings cycles fi fo sh nodes).1 =
      (patternRing typeShell
        (sh.filter (fun a =>
          (mapFind (cycles.foldl cycleRingStep
            { counter := 0, groups := [], ringIdMap := [] }).ringIdMap a).isNone
          && ! fi.contains a && ! fo.contains a))
        (patternRing tagFanOut
          (fo.filter (fun a =>
            (mapFind (cycles.foldl cycleRingStep
              { counter := 0, groups := [], ringIdMap := [] }).ringIdMap a).isNone
            && ! fi.contains a))
          (patternRing tagFanIn
            (fi.filter (fun a =>
              (mapFind (cycles.foldl cycleRingStep
                { counter := 0, groups := [], ringIdMap := [] }).ringIdMap a).isNone))
            ((cycles.foldl cycleRingStep
                { counter := 0, groups := [], ringIdMap := [] }).counter,
             ((cycles.foldl cycleRingStep
                { counter := 0, groups := [], ringIdMap := [] }).groups.foldl
                mkCycleRings ([], nodes)).1,
             ((cycles.foldl cycleRingStep
                { counter := 0, groups := [], ringIdMap := [] }).groups.foldl
                mkCycleRings ([], nodes)).2)))).2.1 := rfl

/-- The assembled rings carry the contiguous ids `RING_1 … RING_len` in
order, and their pattern types are all the cycle rings first, then at most
one fan-in, one fan-out, and one shell ring. -/
theorem assembleFraudRings_scheme (cycles : List (List String))
    (fi fo sh : List String) (nodes : NodeMap) :
    ((assembleFraudRings cycles fi fo sh nodes).1.map FraudRing.ring_id
      = (List.range (assembleFraudRings cycles fi fo sh nodes).1.length).map
          (fun i => ringIdStr (i + 1))) ∧
    ∃ a b c d, b ≤ 1 ∧ c ≤ 1 ∧ d ≤ 1 ∧
      (assembleFraudRings cycles fi fo sh nodes).1.map FraudRing.pattern_type
        = List.replicate a cycleWord ++ (List.replicate b tagFanIn
          ++ (List.replicate c tagFanOut ++ List.replicate d typeShell)) := by
  obtain ⟨hkeys, -⟩ := foldl_cycleRingStep_inv cycles
    { counter := 0, groups := [], ringIdMap := [] }
    ⟨rfl, fun p hp => absurd hp (List.not_mem_nil p)⟩
  obtain ⟨hids0, hty0⟩ := mkCycleRings_fold_ids
    (cycles.foldl cycleRingStep
      { counter := 0, groups := [], ringIdMap := [] }).groups [] nodes
  simp only [List.map_nil, List.nil_append] at hids0
  rw [hkeys] at hids0
  simp only [List.map_nil, List.nil_append] at hty0
  obtain ⟨h1id, b, hb, h1ty⟩ := patternRing_scheme_step tagFanIn
    (fi.filter (fun a =>
      (mapFind (cycles.foldl cycleRingStep
        { counter := 0, groups := [], ringIdMap := [] }).ringIdMap a).isNone))
    ((cycles.foldl cycleRingStep
        { counter := 0, groups := [], ringIdMap := [] }).counter,
     ((cycles.foldl cycleRingStep
        { counter := 0, groups := [], ringIdMap := [] }).groups.foldl
        mkCycleRings ([], nodes)).1,
     ((cycles.foldl cycleRingStep
        { counter := 0, groups := [], ringIdMap := [] }).groups.foldl
        mkCycleRings ([], nodes)).2)
    _ hids0 hty0
  obtain ⟨h2id, c2, hc2, h2ty⟩ := patternRing_scheme_step tagFanOut
    (fo.filter (fun a =>
      (mapFind (cycles.foldl cycleRingStep
        { counter := 0, groups := [], ringIdMap := [] }).ringIdMap a).isNone
      && ! fi.contains a))
    (patternRing tagFanIn
      (fi.filter (fun a =>
        (mapFind (cycles.foldl cycleRingStep
          { counter := 0, groups := [], ringIdMap := [] }).ringIdMap a).isNone))
      ((cycles.foldl cycleRingStep
          { counter := 0, groups := [], ringIdMap := [] }).counter,
       ((cycles.foldl cycleRingStep
          { counter := 0, groups := [], ringIdMap := [] }).groups.foldl
          mkCycleRings ([], nodes)).1,
       ((cycles.foldl cycleRingStep
          { counter := 0, groups := [], ringIdMap := [] }).groups.foldl
          mkCycleRings ([], nodes)).2))
    _ h1id h1ty
  obtain ⟨h3id, d3, hd3, h3ty⟩ := patternRing_scheme_step typeShell
    (sh.filter (fun a =>
      (mapFind (cycles.foldl cycleRingStep
        { counter := 0, groups := [], ringIdMap := [] }).ringIdMap a).isNone
      && ! fi.contains a && ! fo.contains a))
    (patternRing tagFanOut
      (fo.filter (fun a =>
        (mapFind (cycles.foldl cycleRingStep
          { counter := 0, groups := [], ringIdMap := [] }).ringIdMap a).isNone
        && ! fi.contains a))
      (patternRing tagFanIn
        (fi.filter (fun a =>
          (mapFind (cycles.foldl cycleRingStep
            { counter := 0, groups := [], ringIdMap := [] }).ringIdMap a).isNone))
        ((cycles.foldl cycleRingStep
            { counter := 0, groups := [], ringIdMap := [] }).counter,
         ((cycles.foldl cycleRingStep
            { counter := 0, groups := [], ringIdMap := [] }).groups.foldl
            mkCycleRings ([], nodes)).1,
         ((cycles.foldl cycleRingStep
            { counter := 0, groups := [], ringIdMap := [] }).groups.foldl
            mkCycleRings ([], nodes)).2)))
    _ h2id h2ty
  rw [assembleFraudRings_stages]
  constructor
  · have hlen := congrArg List.length h3id
    simp only [List.length_map, List.length_range] at hlen
    rw [hlen]
    exact h3id
  · refine ⟨(cycles.foldl cycleRingStep
      { counter := 0, groups := [], ringIdMap := [] }).groups.length,
      b, c2, d3, hb, hc2, hd3, ?_⟩
    rw [h3ty, List.append_assoc, List.append_assoc]

/-- Account names of pairwise-distinct lengths, to build many disjoint
cycles. -/
def nm (k : Nat) : String := String.mk (List.replicate k 'a')

theorem nm_inj {j k : Nat} (h : nm j = nm k) : j = k := by
  have h2 : (List.replicate j 'a').length = (List.replicate k 'a').length := by
    have h3 := congrArg (fun s : String => s.data.length) h
    simpa [nm] using h3
  simpa using h2

/-- 1000 pairwise-disjoint triangles. -/
def cexCycles : List (List String) :=
  (List.range 1000).map (fun i => [nm (3*i), nm (3*i+1), nm (3*i+2)])

theorem mem_cexCycle {a : String} {i : Nat}
    (h : a ∈ [nm (3*i), nm (3*i+1), nm (3*i+2)]) :
    ∃ d ≤ 2, a = nm (3*i+d) := by
  simp only [List.mem_cons, List.not_mem_nil, or_false] at h
  rcases h with h | h | h
  · exact ⟨0, by omega, by rw [h]; simp⟩
  · exact ⟨1, by omega, h⟩
  · exact ⟨2, by omega, h⟩

theorem cexCycles_pairwise : cexCycles.Pairwise (fun c d => ∀ a ∈ c, a ∉ d) := by
  unfold cexCycles
  rw [List.pairwise_map]
  refine (List.pairwise_lt_range 1000).imp ?_
  intro i j hij a hai haj
  obtain ⟨d, hd, had⟩ := mem_cexCycle hai
  obtain ⟨e, he, hae⟩ := mem_cexCycle haj
  have heq := nm_inj (had.symm.trans hae)
  omega

/-- Every id the counter can produce while at most 999 rings exist keeps the
three-digit shape. -/
theorem ringIdFormatOk_lt : ∀ n, n < 1000 → ringIdFormatOk (ringIdStr n) = true := by
  decide

/-- Claim C6 (counterexample): feeding the assembler 1000 pairwise-disjoint
triangles opens 1000 rings; the 1000th carries id `RING_1000`, which does
not match the documented three-digit format `^RING_\\d{3}$`. -/
theorem c6_thousand_rings :
    (((assembleFraudRings cexCycles [] [] [] []).1.map FraudRing.ring_id).getD
        999 "") = "RING_1000" ∧
    (assembleFraudRings cexCycles [] [] [] []).1.length = 1000 ∧
    ringIdFormatOk "RING_1000" = false := by
  have hlen : cexCycles.length = 1000 := by
    unfold cexCycles
    rw [List.length_map, List.length_range]
  have hcnt := foldl_cycleRingStep_counter_fresh cexCycles
      { counter := 0, groups := [], ringIdMap := [] }
      (fun c _ a _ => rfl) cexCycles_pairwise
  rw [hlen] at hcnt
  rw [show ({ counter := 0, groups := [], ringIdMap := [] } : RingSt).counter = 0
    from rfl, Nat.zero_add] at hcnt
  obtain ⟨hkeys, -⟩ := foldl_cycleRingStep_inv cexCycles
      { counter := 0, groups := [], ringIdMap := [] }
      ⟨rfl, fun p hp => absurd hp (List.not_mem_nil p)⟩
  rw [hcnt] at hkeys
  obtain ⟨hids, -⟩ := mkCycleRings_fold_ids
      (cexCycles.foldl cycleRingStep
        { counter := 0, groups := [], ringIdMap := [] }).groups [] []
  rw [List.map_nil, List.nil_append] at hids
  rw [hkeys] at hids
  have hrw : (assembleFraudRings cexCycles [] [] [] []).1
      = ((cexCycles.foldl cycleRingStep
          { counter := 0, groups := [], ringIdMap := [] }).groups.foldl
          mkCycleRings ([], [])).1 := by
    rw [assembleFraudRings_no_patterns]
  have hlen2 : (assembleFraudRings cexCycles [] [] [] []).1.length = 1000 := by
    rw [hrw]
    have h4 := congrArg List.length hids
    rw [List.length_map, List.length_map, List.length_range] at h4
    exact h4
  refine ⟨?_, hlen2, by decide⟩
  rw [hrw, hids]
  decide

/-- Claim C6 (amended): on every invocation the emitted rings carry the ids
`RING_` + counter, padded to at least three digits, contiguously from 1 in
assignment order — all cycle rings first, then at most one fan-in, one
fan-out, and one shell ring; the documented `RING_` + three-digit shape is
guaranteed only while at most 999 rings are emitted (the counterexample
above shows `RING_1000` breaking it). -/
theorem c6_ring_id_scheme (transactions : List Transaction) (t1 t2 : ℤ) :
    ((analyzeTransactions transactions t1 t2).fraud_rings.map FraudRing.ring_id
      = (List.range
          (analyzeTransactions transactions t1 t2).fraud_rings.length).map
          (fun i => ringIdStr (i + 1))) ∧
    (∃ a b c d, b ≤ 1 ∧ c ≤ 1 ∧ d ≤ 1 ∧
      (analyzeTransactions transactions t1 t2).fraud_rings.map
          FraudRing.pattern_type
        = List.replicate a cycleWord ++ (List.replicate b tagFanIn
          ++ (List.replicate c tagFanOut ++ List.replicate d typeShell))) ∧
    ((analyzeTransactions transactions t1 t2).fraud_rings.length ≤ 999 →
      ∀ rid ∈ (analyzeTransactions transactions t1 t2).fraud_rings.map
          FraudRing.ring_id,
        ringIdFormatOk rid = true) := by
  have hr : (analyzeTransactions transactions t1 t2).fraud_rings
      = (assembleFraudRings (pipelineCycles transactions)
          (detectSmurfing (pipelineGraph transactions).edges).fanInAccounts
          (detectSmurfing (pipelineGraph transactions).edges).fanOutAccounts
          (detectShellChains (pipelineGraph transactions).nodes
            (pipelineGraph transactions).adjacency)
          (nodesAfterFilter transactions)).1 := rfl
  rw [hr]
  obtain ⟨h1, h2⟩ := assembleFraudRings_scheme (pipelineCycles transactions)
    (detectSmurfing (pipelineGraph transactions).edges).fanInAccounts
    (detectSmurfing (pipelineGraph transactions).edges).fanOutAccounts
    (detectShellChains (pipelineGraph transactions).nodes
      (pipelineGraph transactions).adjacency)
    (nodesAfterFilter transactions)
  refine ⟨h1, h2, ?_⟩
  intro hlen rid hrid
  rw [h1] at hrid
  obtain ⟨i, hi, hget⟩ := List.mem_map.mp hrid
  have hi2 := List.mem_range.mp hi
  rw [← hget]
  exact ringIdFormatOk_lt (i + 1) (by omega)

/-- Witness for the amended C6 on the fan-out scenario: the single emitted
ring is `RING_001` and every emitted id keeps the three-digit shape. -/
theorem c6_ring_id_scheme_witness :
    (analyzeTransactions velocityTxs 0 0).fraud_rings.map FraudRing.ring_id
        = ["RING_001"] ∧
    ∀ rid ∈ (analyzeTransactions velocityTxs 0 0).fraud_rings.map
        FraudRing.ring_id,
      ringIdFormatOk rid = true := by
  constructor
  · rw [(c6_ring_id_scheme velocityTxs 0 0).1]
    decide
  · exact (c6_ring_id_scheme velocityTxs 0 0).2.2 (by decide)

-- =============================================
-- Claim C5: the smurfing window semantics
-- =============================================

/-- Spec-side reading of the smurfing rule: some window `[l, r]` of the
timestamp-sorted edge list, inclusive on both ends and of width
`timestamp[r] - timestamp[l] ≤ 72 h`, holds at least 10 distinct
counterparties. -/
def smurfWindowSpec (es : List GraphEdge) (proj : GraphEdge → String) : Prop :=
  ∃ l r : Nat, l ≤ r ∧ r < (List.insertionSort edgeTsLe es).length ∧
    tsAt (List.insertionSort edgeTsLe es) r
        - tsAt (List.insertionSort edgeTsLe es) l ≤ SMURF_WINDOW_MS ∧
    SMURF_THRESHOLD ≤ countDistinct
      ((windowSlice (List.insertionSort edgeTsLe es) l r).map proj)

/-- The advance loop never moves the left pointer backwards. -/
theorem advanceLeft_ge (S : List GraphEdge) (W : ℤ) (right : Nat) :
    ∀ (fuel left : Nat), left ≤ advanceLeft S W right left fuel := by
  intro fuel
  induction fuel with
  | zero => intro left; exact le_refl left
  | succ fuel ih =>
    intro left
    unfold advanceLeft
    by_cases hc : W < tsAt S right - tsAt S left
    · rw [if_pos hc]
      exact le_trans (Nat.le_succ left) (ih (left + 1))
    · rw [if_neg hc]

/-- With enough fuel the advance loop stops at an index that is at most
`right` and whose window is within the limit. -/
theorem advanceLeft_spec (S : List GraphEdge) (W : ℤ) (hW : 0 ≤ W)
    (right : Nat) :
    ∀ (fuel left : Nat), right - left ≤ fuel → left ≤ right →
      advanceLeft S W right left fuel ≤ right ∧
      tsAt S right - tsAt S (advanceLeft S W right left fuel) ≤ W := by
  intro fuel
  induction fuel with
  | zero =>
    intro left hfuel hlr
    have he : left = right := by omega
    unfold advanceLeft
    subst he
    exact ⟨le_refl left, by omega⟩
  | succ fuel ih =>
    intro left hfuel hlr
    unfold advanceLeft
    by_cases hc : W < tsAt S right - tsAt S left
    · rw [if_pos hc]
      have hne : left ≠ right := by
        intro he
        rw [he] at hc
        omega
      exact ih (left + 1) (by omega) (by omega)
    · rw [if_neg hc]
      exact ⟨hlr, by omega⟩

/-- If some index `l ≥ left` already has a window within the limit, the
advance loop never moves past it. -/
theorem advanceLeft_le_of_valid (S : List GraphEdge) (W : ℤ) (right l : Nat)
    (hval : tsAt S right - tsAt S l ≤ W) :
    ∀ (fuel left : Nat), left ≤ l → advanceLeft S W right left fuel ≤ l := by
  intro fuel
  induction fuel with
  | zero => intro left h; exact h
  | succ fuel ih =>
    intro left h
    unfold advanceLeft
    by_cases hc : W < tsAt S right - tsAt S left
    · rw [if_pos hc]
      have hne : left ≠ l := by
        intro he
        rw [he] at hc
        omega
      exact ih (left + 1) (by omega)
    · rw [if_neg hc]
      exact h

/-- Distinct counts only grow along sublists. -/
theorem countDistinct_mono {l1 l2 : List String} (h : List.Sublist l1 l2) :
    countDistinct l1 ≤ countDistinct l2 := by
  unfold countDistinct
  rw [← List.card_toFinset, ← List.card_toFinset]
  exact Finset.card_le_card
    (fun x hx => List.mem_toFinset.mpr (h.subset (List.mem_toFinset.mp hx)))

/-- A window is a sublist of any window with the same right end and a left
end at most as large. -/
theorem windowSlice_sublist (S : List GraphEdge) (l2 l r : Nat) (h : l2 ≤ l) :
    List.Sublist (windowSlice S l r) (windowSlice S l2 r) := by
  unfold windowSlice
  have h1 : (S.drop l).take (r + 1 - l)
      = ((S.drop l2).take (r + 1 - l2)).drop (l - l2) := by
    rw [List.drop_take, List.drop_drop]
    have e1 : l2 + (l - l2) = l := by omega
    have e2 : r + 1 - l2 - (l - l2) = r + 1 - l := by omega
    rw [e1, e2]
  rw [h1]
  exact List.drop_sublist _ _

/-- On a timestamp-sorted list the embedded timestamps are monotone. -/
theorem tsAt_mono {S : List GraphEdge} (hs : S.Sorted edgeTsLe) {i j : Nat}
    (hij : i ≤ j) (hj : j < S.length) : tsAt S i ≤ tsAt S j := by
  unfold tsAt
  have hi : i < S.length := lt_of_le_of_lt hij hj
  rw [List.getD_eq_getElem _ _ hi, List.getD_eq_getElem _ _ hj]
  rcases Nat.lt_or_ge i j with hlt | hge
  · exact List.Sorted.rel_get_of_lt hs
      (show (⟨i, hi⟩ : Fin S.length) < ⟨j, hj⟩ from hlt)
  · have he : i = j := by omega
    subst he
    exact le_refl _

/-- Soundness of the scan: a raised flag comes from an actual window within
the 72-hour limit holding at least the threshold of counterparties. -/
theorem smurfGo_sound (S : List GraphEdge) (proj : GraphEdge → String) :
    ∀ (rem left : Nat), left + rem ≤ S.length →
      smurfGo S proj left rem = true →
      ∃ l r, l ≤ r ∧ r < S.length ∧
        tsAt S r - tsAt S l ≤ SMURF_WINDOW_MS ∧
        SMURF_THRESHOLD ≤ countDistinct ((windowSlice S l r).map proj) := by
  intro rem
  induction rem with
  | zero => intro left _ h; cases h
  | succ rem ih =>
    intro left hle h
    unfold smurfGo at h
    simp only [] at h
    have hlr : left ≤ S.length - (rem + 1) := by omega
    have hadv := advanceLeft_spec S SMURF_WINDOW_MS (by decide)
      (S.length - (rem + 1)) ((S.length - (rem + 1)) - left) left
      (le_refl _) hlr
    by_cases hc : SMURF_THRESHOLD ≤ countDistinct ((windowSlice S
        (advanceLeft S SMURF_WINDOW_MS (S.length - (rem + 1)) left
          ((S.length - (rem + 1)) - left))
        (S.length - (rem + 1))).map proj)
    · exact ⟨advanceLeft S SMURF_WINDOW_MS (S.length - (rem + 1)) left
          ((S.length - (rem + 1)) - left),
        S.length - (rem + 1), hadv.1, by omega, hadv.2, hc⟩
    · rw [if_neg hc] at h
      exact ih _ (by omega) h

/-- Completeness of the scan: if a window within the limit holds at least
the threshold of counterparties and its right end is still to be visited
while the current left pointer has not passed its left end, the scan raises
the flag. -/
theorem smurfGo_complete (S : List GraphEdge) (proj : GraphEdge → String)
    (hs : S.Sorted edgeTsLe) :
    ∀ (rem left l r : Nat), left + rem ≤ S.length → left ≤ l → l ≤ r →
      r < S.length → S.length - rem ≤ r →
      tsAt S r - tsAt S l ≤ SMURF_WINDOW_MS →
      SMURF_THRESHOLD ≤ countDistinct ((windowSlice S l r).map proj) →
      smurfGo S proj left rem = true := by
  intro rem
  induction rem with
  | zero =>
    intro left l r hle hll hlr hrn hrem hval hcd
    exfalso
    omega
  | succ rem ih =>
    intro left l r hle hll hlr hrn hrem hval hcd
    unfold smurfGo
    simp only []
    have hlright : left ≤ S.length - (rem + 1) := by omega
    have hadv := advanceLeft_spec S SMURF_WINDOW_MS (by decide)
      (S.length - (rem + 1)) ((S.length - (rem + 1)) - left) left
      (le_refl _) hlright
    have hl2l : advanceLeft S SMURF_WINDOW_MS (S.length - (rem + 1)) left
        ((S.length - (rem + 1)) - left) ≤ l := by
      rcases le_or_lt l (S.length - (rem + 1)) with hcase | hcase
      · have hmono : tsAt S (S.length - (rem + 1)) ≤ tsAt S r :=
          tsAt_mono hs (by omega) hrn
        exact advanceLeft_le_of_valid S SMURF_WINDOW_MS
          (S.length - (rem + 1)) l (by omega) _ left hll
      · omega
    by_cases htest : SMURF_THRESHOLD ≤ countDistinct ((windowSlice S
        (advanceLeft S SMURF_WINDOW_MS (S.length - (rem + 1)) left
          ((S.length - (rem + 1)) - left))
        (S.length - (rem + 1))).map proj)
    · rw [if_pos htest]
    · have hrr : S.length - (rem + 1) ≠ r := by
        intro he
        rw [he] at htest hl2l
        have hsub := windowSlice_sublist S
          (advanceLeft S SMURF_WINDOW_MS r left (r - left)) l r hl2l
        have hmono2 := countDistinct_mono (hsub.map proj)
        omega
      rw [if_neg htest]
      exact ih _ l r (by omega) hl2l hlr hrn (by omega) hval hcd

/-- The per-group flag is exactly the window specification. -/
theorem smurfFlag_iff (es : List GraphEdge) (proj : GraphEdge → String) :
    smurfFlag es proj = true ↔ smurfWindowSpec es proj := by
  unfold smurfFlag smurfWindowSpec
  simp only []
  constructor
  · intro h
    exact smurfGo_sound _ proj _ 0 (by omega) h
  · rintro ⟨l, r, h1, h2, h3, h4⟩
    exact smurfGo_complete _ proj (List.sorted_insertionSort edgeTsLe es) _ 0
      l r (by omega) (Nat.zero_le l) h1 h2 (by omega) h3 h4

/-- Membership in the accumulating detector fold. -/
theorem mem_smurfFold (f : String × List GraphEdge → Bool)
    (groups : List (String × List GraphEdge)) (a : String) :
    ∀ acc0 : List String,
      (a ∈ groups.foldl
          (fun acc kv => if f kv then setAdd acc kv.1 else acc) acc0 ↔
        a ∈ acc0 ∨ ∃ kv ∈ groups, kv.1 = a ∧ f kv = true) := by
  induction groups with
  | nil => intro acc0; simp
  | cons g rest ih =>
    intro acc0
    simp only [List.foldl_cons]
    rw [ih]
    by_cases hf : f g = true
    · rw [if_pos hf]
      constructor
      · rintro (h | h)
        · rcases mem_setAdd h with h2 | h2
          · exact Or.inl h2
          · exact Or.inr ⟨g, List.mem_cons_self g rest, h2.symm, hf⟩
        · obtain ⟨kv, hkv, hk1, hk2⟩ := h
          exact Or.inr ⟨kv, List.mem_cons_of_mem g hkv, hk1, hk2⟩
      · rintro (h | h)
        · refine Or.inl ?_
          unfold setAdd
          by_cases hc : acc0.contains g.1 = true
          · rw [if_pos hc]; exact h
          · rw [if_neg hc]; exact List.mem_append.mpr (Or.inl h)
        · obtain ⟨kv, hkv, hk1, hk2⟩ := h
          rcases List.mem_cons.mp hkv with he | hm
          · refine Or.inl ?_
            unfold setAdd
            rw [← he, hk1]
            by_cases hc : acc0.contains a = true
            · rw [if_pos hc]; exact List.elem_iff.mp hc
            · rw [if_neg hc]
              exact List.mem_append.mpr (Or.inr (List.mem_singleton.mpr rfl))
          · exact Or.inr ⟨kv, hm, hk1, hk2⟩
    · rw [if_neg hf]
      constructor
      · rintro (h | h)
        · exact Or.inl h
        · obtain ⟨kv, hkv, hk1, hk2⟩ := h
          exact Or.inr ⟨kv, List.mem_cons_of_mem g hkv, hk1, hk2⟩
      · rintro (h | h)
        · exact Or.inl h
        · obtain ⟨kv, hkv, hk1, hk2⟩ := h
          rcases List.mem_cons.mp hkv with he | hm
          · rw [he] at hk2
            exact absurd hk2 hf
          · exact Or.inr ⟨kv, hm, hk1, hk2⟩

/-- Claim C5: the smurfing detector flags an account for fan-in (resp.
fan-out) exactly when some inclusive window of its timestamp-sorted
incoming (resp. outgoing) edges of width at most 72 hours holds at least 10
distinct counterparties; in particular 10 distinct counterparties in such a
window trigger the flag and an account whose every such window holds at
most 9 is never flagged. -/
theorem c5_smurfing_iff (edges : List GraphEdge) (acc : String) :
    ((acc ∈ (detectSmurfing edges).fanInAccounts) ↔
      (∃ g ∈ byReceiver edges, g.1 = acc ∧
        smurfWindowSpec g.2 (fun e => e.source))) ∧
    ((acc ∈ (detectSmurfing edges).fanOutAccounts) ↔
      (∃ g ∈ bySender edges, g.1 = acc ∧
        smurfWindowSpec g.2 (fun e => e.target))) := by
  have hin : (detectSmurfing edges).fanInAccounts
      = (byReceiver edges).foldl
        (fun acc2 kv => if smurfFlag kv.2 (fun e => e.source)
          then setAdd acc2 kv.1 else acc2) [] := rfl
  have hout : (detectSmurfing edges).fanOutAccounts
      = (bySender edges).foldl
        (fun acc2 kv => if smurfFlag kv.2 (fun e => e.target)
          then setAdd acc2 kv.1 else acc2) [] := rfl
  constructor
  · rw [hin, mem_smurfFold (fun kv => smurfFlag kv.2 (fun e => e.source))]
    simp only [List.not_mem_nil, false_or]
    exact exists_congr (fun g => and_congr_right (fun _ =>
      and_congr_right (fun _ => smurfFlag_iff g.2 (fun e => e.source))))
  · rw [hout, mem_smurfFold (fun kv => smurfFlag kv.2 (fun e => e.target))]
    simp only [List.not_mem_nil, false_or]
    exact exists_congr (fun g => and_congr_right (fun _ =>
      and_congr_right (fun _ => smurfFlag_iff g.2 (fun e => e.target))))

/-- Witness for C5 on the fan-out scenario: `S` pays 20 distinct receivers
within minutes, and the window `[0, 9]` of its outgoing edges exhibits the
10 distinct counterparties required by the specification side of the
equivalence. -/
theorem c5_smurfing_iff_witness :
    "S" ∈ (detectSmurfing (pipelineGraph velocityTxs).edges).fanOutAccounts := by
  refine (c5_smurfing_iff (pipelineGraph velocityTxs).edges "S").2.mpr ?_
  refine ⟨("S", (pipelineGraph velocityTxs).edges), by decide, rfl, 0, 9,
    by decide, by decide, by decide, by decide⟩

end PathProof
